import Mathlib

/-!
# Verification of the ww-infinite-query caching core

A shallow embedding, in Lean 4, of the caching engine and pagination state
machine of the ww-infinite-query repository:

* `src/core/utils.js` — key canonicalization (`hashKey`) and staleness
  (`isStale`);
* the shared `QueryCache` (get / fetch with dedup / invalidate / remove /
  subscribe / scheduleGC / notify, plus the family key registry);
* the pagination logic of `wwElement.vue` (`fetchPage` window truncation and
  `refetchAll` sequential re-fetch).

JavaScript maps are embedded as association lists, timers as an explicit set
of armed timer ids, promises as identifiers with a settlement table, and the
single-threaded run-to-completion semantics as a step function over an
explicit cache state.  Machine-level aspects (actual wall-clock time, the
event loop, the network) are passed in as explicit parameters.
-/

namespace WWQuery

/-! ## Query status (src/core/utils.js, QueryStatus) -/

/-- The four query states of `QueryStatus` in `src/core/utils.js`. -/
inductive QueryStatus where
  | idle
  | loading
  | success
  | error
deriving DecidableEq, Repr

/-! ## Staleness (src/core/utils.js, isStale) -/

/-- A stale-time configuration: a finite number of milliseconds, or
JavaScript `Infinity`. -/
inductive StaleTime where
  | finite (ms : Int)
  | infinity
deriving DecidableEq, Repr

/-- Embedding of `isStale(fetchedAt, staleTime)` from `src/core/utils.js`:
if `staleTime === Infinity` return false; if `!fetchedAt` (i.e. it is 0)
return true; otherwise return `Date.now() - fetchedAt > staleTime`.
`now` stands for `Date.now()`. -/
def isStale (now fetchedAt : Int) (staleTime : StaleTime) : Bool :=
  match staleTime with
  | .infinity => false
  | .finite ms => if fetchedAt = 0 then true else decide (now - fetchedAt > ms)

/-! ## Page chains (src/wwElement.vue) -/

/-- The local page chain of one ww-infinite-query instance: the reactive
`pages` and `pageParams` arrays of `wwElement.vue`, kept in lockstep. -/
structure PageChain (α : Type) where
  pages : List α
  pageParams : List Int
deriving DecidableEq, Repr

/-- Fetch direction of `fetchPage(pageParam, direction)`. -/
inductive Direction where
  | next
  | previous
deriving DecidableEq, Repr

/-- The last `n` elements of a list: JS `arr.slice(-n)` for `0 < n`. -/
def takeLast {α : Type} (n : Nat) (l : List α) : List α :=
  l.drop (l.length - n)

/-- The chain-update half of `fetchPage` in `src/wwElement.vue` (lines
202–220): append (direction `next`) or prepend (direction `previous`) the
fetched page and its param, then, if `maxPages > 0` and the chain exceeds
it, keep `pages.slice(-maxPages)` after an append, or
`pages.slice(0, maxPages)` after a prepend, doing the same to `pageParams`.
`maxPages = 0` models the JS `props.content.maxPages || 0` "unbounded"
default. -/
def applyPage {α : Type} (c : PageChain α) (maxPages : Nat) (pageParam : Int)
    (pageData : α) (dir : Direction) : PageChain α :=
  match dir with
  | .next =>
    let pages := c.pages ++ [pageData]
    let params := c.pageParams ++ [pageParam]
    if maxPages > 0 ∧ pages.length > maxPages then
      ⟨takeLast maxPages pages, takeLast maxPages params⟩
    else
      ⟨pages, params⟩
  | .previous =>
    let pages := pageData :: c.pages
    let params := pageParam :: c.pageParams
    if maxPages > 0 ∧ pages.length > maxPages then
      ⟨pages.take maxPages, params.take maxPages⟩
    else
      ⟨pages, params⟩

/-- Appending a list of params in order with `applyPage`, each page's data
given by `f`; models successive successful next-page fetches. -/
def applyPages {α : Type} (c : PageChain α) (maxPages : Nat) (f : Int → α) :
    List Int → PageChain α
  | [] => c
  | p :: ps => applyPages (applyPage c maxPages p (f p) .next) maxPages f ps

/-! ## refetchAll (src/wwElement.vue, lines 376–408)

`refetchAll` copies the resident `pageParams`, clears the chain, then
sequentially, for each saved param: invalidates that page's cache entry and
awaits `fetchPage(param, 'next')`.  The first failing fetch throws out of
the `for` loop into the surrounding catch, which surfaces exactly that
error; params after it are never attempted.  The producer behaviour during
one run is abstracted as a function from page param to `Except`. -/

/-- Result of a `refetchAll` run: the final chain, the list of params
actually attempted (each of which is invalidated and fetched, in order),
and the surfaced error if any. -/
structure RefetchResult (α ε : Type) where
  chain : PageChain α
  attempted : List Int
  surfaced : Option ε
deriving DecidableEq, Repr

/-- The `for (const param of currentPageParams)` loop of `refetchAll`,
running inside the try block: invalidate + fetch each param in order,
stopping at the first failure. -/
def refetchLoop {α ε : Type} (f : Int → Except ε α) (maxPages : Nat) :
    List Int → PageChain α → RefetchResult α ε
  | [], c => ⟨c, [], none⟩
  | p :: ps, c =>
    match f p with
    | .ok d =>
      let r := refetchLoop f maxPages ps (applyPage c maxPages p d .next)
      ⟨r.chain, p :: r.attempted, r.surfaced⟩
    | .error e => ⟨c, [p], some e⟩

/-- `refetchAll` in `src/wwElement.vue`: snapshot the resident params,
reset the chain to empty, then run the sequential loop. -/
def refetchAll {α ε : Type} (f : Int → Except ε α) (maxPages : Nat)
    (residentParams : List Int) : RefetchResult α ε :=
  refetchLoop f maxPages residentParams ⟨[], []⟩

/-! ## The QueryCache (src/unnamed/part_000, registry-aware version)

JavaScript `Map`s are embedded as association lists with unique keys
(`aset` updates in place), `Set`s of callbacks as duplicate-free lists of
callback identifiers, `setTimeout` handles as numeric timer ids recorded in
an explicit armed-timer list (`clearTimeout` removes the id, so a cancelled
timer can never fire), and in-flight promises as numeric promise ids with a
settlement table recording each promise's eventual outcome. -/

/-- Association-list lookup (JS `Map.get`). -/
def alookup {β : Type} (k : String) : List (String × β) → Option β
  | [] => none
  | (k', v) :: t => if k' = k then some v else alookup k t

/-- Association-list insert-or-update (JS `Map.set`). -/
def aset {β : Type} (k : String) (v : β) : List (String × β) → List (String × β)
  | [] => [(k, v)]
  | (k', v') :: t => if k' = k then (k, v) :: t else (k', v') :: aset k v t

/-- Association-list removal (JS `Map.delete`). -/
def aerase {β : Type} (k : String) : List (String × β) → List (String × β)
  | [] => []
  | (k', v') :: t => if k' = k then t else (k', v') :: aerase k t

/-- Decidable equality for promise outcomes. -/
instance {ε α : Type} [DecidableEq ε] [DecidableEq α] :
    DecidableEq (Except ε α) := fun x y =>
  match x, y with
  | .ok a, .ok b =>
    if h : a = b then isTrue (by rw [h]) else isFalse (fun hc => h (Except.ok.inj hc))
  | .error a, .error b =>
    if h : a = b then isTrue (by rw [h]) else isFalse (fun hc => h (Except.error.inj hc))
  | .ok _, .error _ => isFalse (fun hc => Except.noConfusion hc)
  | .error _, .ok _ => isFalse (fun hc => Except.noConfusion hc)

/-- One `QueryEntry` of the cache: data, error, status, fetchedAt, the
in-flight promise id (dedup marker), the subscriber callback ids, and the
pending GC timer id. -/
structure Entry (α ε : Type) where
  data : Option α
  error : Option ε
  status : QueryStatus
  fetchedAt : Nat
  promise : Option Nat
  subscribers : List Nat
  gcTimeout : Option Nat
deriving DecidableEq, Repr

/-- The fresh Idle entry created by `get` for an absent key. -/
def Entry.empty {α ε : Type} : Entry α ε :=
  { data := none, error := none, status := .idle, fetchedAt := 0,
    promise := none, subscribers := [], gcTimeout := none }

/-- The whole `QueryCache` state: the entry map `_cache`, the family
registry `_keyRegistry`, the armed (not yet fired, not cancelled)
`setTimeout` timers with their captured key and baseKey, fresh promise and
timer id counters, and the table of settled promise outcomes. -/
structure CacheState (α ε : Type) where
  cache : List (String × Entry α ε)
  keyRegistry : List (String × List String)
  armedTimers : List (Nat × String × Option String)
  nextPromiseId : Nat
  nextTimerId : Nat
  outcomes : List (Nat × Except ε α)
deriving DecidableEq, Repr

/-- The state of a freshly constructed `QueryCache`. -/
def CacheState.initial {α ε : Type} : CacheState α ε :=
  { cache := [], keyRegistry := [], armedTimers := [],
    nextPromiseId := 0, nextTimerId := 0, outcomes := [] }

/-- `_registerKey(compositeKey, baseKey)`: add the composite key to its
family's set, creating the family if needed (`Set.add` semantics). -/
def registerKey (compositeKey baseKey : String)
    (reg : List (String × List String)) : List (String × List String) :=
  match alookup baseKey reg with
  | none => aset baseKey [compositeKey] reg
  | some fam =>
    aset baseKey (if compositeKey ∈ fam then fam else fam ++ [compositeKey]) reg

/-- `_unregisterKey(compositeKey, baseKey)`: delete the composite key from
its family, pruning the family if it becomes empty. -/
def unregisterKey (compositeKey baseKey : String)
    (reg : List (String × List String)) : List (String × List String) :=
  match alookup baseKey reg with
  | none => reg
  | some fam =>
    let fam' := fam.erase compositeKey
    if fam' = [] then aerase baseKey reg else aset baseKey fam' reg

/-- `clearTimeout(t)`: disarm a timer id, if any. -/
def clearTimer {α ε : Type} (s : CacheState α ε) (t : Option Nat) :
    CacheState α ε :=
  match t with
  | some tid => { s with armedTimers := s.armedTimers.filter (fun a => a.1 ≠ tid) }
  | none => s

/-- `get(compositeKey, baseKey)`: lazily create an Idle entry, register the
composite key under its family when a baseKey is supplied, and return the
entry; never starts a fetch. -/
def CacheState.get {α ε : Type} (s : CacheState α ε) (compositeKey : String)
    (baseKey : Option String) : CacheState α ε × Entry α ε :=
  let s1 := if (alookup compositeKey s.cache).isSome then s
            else { s with cache := aset compositeKey Entry.empty s.cache }
  let s2 := match baseKey with
    | some b => { s1 with keyRegistry := registerKey compositeKey b s1.keyRegistry }
    | none => s1
  (s2, (alookup compositeKey s2.cache).getD Entry.empty)

/-- Result of the synchronous part of `fetch`: either the existing
in-flight promise was returned (dedup; the producer is NOT invoked) or a
new producer run was started under a fresh promise id. -/
inductive FetchOutcome where
  | deduped (pid : Nat)
  | started (pid : Nat)
deriving DecidableEq, Repr

/-- The synchronous prefix of `fetch(compositeKey, fetchFn, baseKey)`:
get/create the entry; if a promise is in flight return it unchanged
(before any status change or notification); otherwise set status to
Loading only if the entry was Idle, notify subscribers, invoke the
producer, and store the fresh in-flight promise id.  Returns the new
state, the outcome, and the subscriber ids notified. -/
def CacheState.fetchStart {α ε : Type} (s : CacheState α ε) (key : String)
    (baseKey : Option String) : CacheState α ε × FetchOutcome × List Nat :=
  let p := s.get key baseKey
  let s1 := p.1
  let entry := p.2
  match entry.promise with
  | some pid => (s1, .deduped pid, [])
  | none =>
    let entry1 := if entry.status = .idle then { entry with status := .loading }
                  else entry
    let s2 := { s1 with cache := aset key entry1 s1.cache }
    let pid := s2.nextPromiseId
    let s3 := { s2 with
      cache := aset key ({ entry1 with promise := some pid }) s2.cache,
      nextPromiseId := pid + 1 }
    (s3, .started pid, entry1.subscribers)

/-- The continuation of `fetch` once the producer settles (the
try/catch/finally body): on success store the data, clear the error, set
status Success and fetchedAt to now; on failure store the error and set
status Error only when the entry holds no data; in both cases clear the
in-flight marker, record the promise outcome, and notify subscribers.
If the entry was removed meanwhile the closure mutates an unreachable
object and `_notify` finds no entry, so nothing observable happens. -/
def CacheState.settle {α ε : Type} (s : CacheState α ε) (key : String)
    (result : Except ε α) (now : Nat) : CacheState α ε × List Nat :=
  match alookup key s.cache with
  | none => (s, [])
  | some entry =>
    let entry1 :=
      match result with
      | .ok d => { entry with
          data := some d, error := none, status := .success,
          fetchedAt := now, promise := none }
      | .error e => { entry with
          error := some e,
          status := if entry.data.isNone then .error else entry.status,
          promise := none }
    ({ s with
       cache := aset key entry1 s.cache,
       outcomes := (match entry.promise with
         | some pid => (pid, result) :: s.outcomes
         | none => s.outcomes) },
     entry1.subscribers)

/-- `invalidate(compositeKey)`: on a resident entry reset fetchedAt to 0
and notify its subscribers; otherwise do nothing. -/
def CacheState.invalidate {α ε : Type} (s : CacheState α ε) (key : String) :
    CacheState α ε × List Nat :=
  match alookup key s.cache with
  | none => (s, [])
  | some entry =>
    ({ s with cache := aset key ({ entry with fetchedAt := 0 }) s.cache },
     entry.subscribers)

/-- `invalidateByKey(baseKey)`: invalidate every composite key registered
under the family. -/
def CacheState.invalidateByKey {α ε : Type} (s : CacheState α ε)
    (baseKey : String) : CacheState α ε :=
  match alookup baseKey s.keyRegistry with
  | none => s
  | some fam => fam.foldl (fun acc k => (acc.invalidate k).1) s

/-- `invalidateAll()`: invalidate every cached key. -/
def CacheState.invalidateAll {α ε : Type} (s : CacheState α ε) :
    CacheState α ε :=
  (s.cache.map Prod.fst).foldl (fun acc k => (acc.invalidate k).1) s

/-- `remove(compositeKey, baseKey)`: delete the entry (cancelling its GC
timer); when a baseKey is supplied, also unregister the composite key from
the family — the unregistration is skipped when baseKey is absent. -/
def CacheState.remove {α ε : Type} (s : CacheState α ε) (key : String)
    (baseKey : Option String) : CacheState α ε :=
  let s1 :=
    match alookup key s.cache with
    | some entry =>
      let s' := clearTimer s entry.gcTimeout
      { s' with cache := aerase key s'.cache }
    | none => s
  match baseKey with
  | some b => { s1 with keyRegistry := unregisterKey key b s1.keyRegistry }
  | none => s1

/-- `removeByKey(baseKey)`: remove every composite key of the family
(iterating over a snapshot copy of the family set). -/
def CacheState.removeByKey {α ε : Type} (s : CacheState α ε)
    (baseKey : String) : CacheState α ε :=
  match alookup baseKey s.keyRegistry with
  | none => s
  | some fam => fam.foldl (fun acc k => acc.remove k (some baseKey)) s

/-- `subscribe(compositeKey, cb, baseKey)`: get/create the entry, cancel
any pending GC timer, add the callback to the subscriber set. -/
def CacheState.subscribe {α ε : Type} (s : CacheState α ε) (key : String)
    (cb : Nat) (baseKey : Option String) : CacheState α ε :=
  let p := s.get key baseKey
  let s1 := p.1
  let entry := p.2
  let q : CacheState α ε × Entry α ε :=
    match entry.gcTimeout with
    | some tid => (clearTimer s1 (some tid), { entry with gcTimeout := none })
    | none => (s1, entry)
  let s2 := q.1
  let entry1 := q.2
  { s2 with cache := aset key ({ entry1 with
      subscribers := if cb ∈ entry1.subscribers then entry1.subscribers
                     else entry1.subscribers ++ [cb] }) s2.cache }

/-- The disposer returned by `subscribe`: remove the callback from the
subscriber set; it does not itself arm eviction. -/
def CacheState.unsubscribe {α ε : Type} (s : CacheState α ε) (key : String)
    (cb : Nat) : CacheState α ε :=
  match alookup key s.cache with
  | none => s
  | some entry =>
    { s with
      cache := aset key ({ entry with subscribers := entry.subscribers.erase cb }) s.cache }

/-- `scheduleGC(compositeKey, cacheTime, baseKey)`: no-op on an absent
entry or one that still has subscribers; otherwise cancel any previous
timer, and — unless `cacheTime === Infinity` (modelled as `none`) — arm a
fresh one-shot eviction timer capturing the key and baseKey.  As in the
source, the Infinity branch returns without nulling the (now cancelled)
`gcTimeout` field. -/
def CacheState.scheduleGC {α ε : Type} (s : CacheState α ε) (key : String)
    (cacheTime : Option Nat) (baseKey : Option String) : CacheState α ε :=
  match alookup key s.cache with
  | none => s
  | some entry =>
    if entry.subscribers ≠ [] then s
    else
      let s1 := clearTimer s entry.gcTimeout
      match cacheTime with
      | none => s1
      | some _ =>
        let tid := s1.nextTimerId
        { s1 with
          cache := aset key ({ entry with gcTimeout := some tid }) s1.cache,
          armedTimers := s1.armedTimers ++ [(tid, key, baseKey)],
          nextTimerId := tid + 1 }

/-- An armed eviction timer fires: if the timer id is still armed (i.e. it
was never cancelled by `clearTimeout`), disarm it and run the callback,
which deletes the entry — and unregisters it when a baseKey was captured —
only if the entry still has no subscribers. -/
def CacheState.fireGC {α ε : Type} (s : CacheState α ε) (tid : Nat) :
    CacheState α ε :=
  match s.armedTimers.find? (fun a => a.1 = tid) with
  | none => s
  | some (_, key, baseKey) =>
    let s1 := { s with armedTimers := s.armedTimers.filter (fun a => a.1 ≠ tid) }
    match alookup key s1.cache with
    | none => s1
    | some entry =>
      if entry.subscribers = [] then
        let s2 := { s1 with cache := aerase key s1.cache }
        match baseKey with
        | some b => { s2 with keyRegistry := unregisterKey key b s2.keyRegistry }
        | none => s2
      else s1

/-- `_notify(compositeKey)`: invoke every subscriber callback in insertion
order, catching (and logging) any exception a callback throws, so one
throwing callback never prevents the remaining callbacks from running nor
the notifying operation from completing.  A callback's behaviour is given
by `runCb`; the result pairs each invoked callback id with the error it
threw, if any (caught, never propagated). -/
def notifyRun (subs : List Nat) (runCb : Nat → Except String Unit) :
    List (Nat × Option String) :=
  subs.map (fun cb =>
    match runCb cb with
    | .ok _ => (cb, none)
    | .error e => (cb, some e))

/-- One asynchronous turn of the cooperative scheduler: every public cache
operation plus the two asynchronous re-entry points (producer settlement
and eviction-timer firing). -/
inductive Op (α ε : Type) where
  | get (key : String) (baseKey : Option String)
  | fetchStart (key : String) (baseKey : Option String)
  | settle (key : String) (result : Except ε α) (now : Nat)
  | invalidate (key : String)
  | invalidateByKey (baseKey : String)
  | invalidateAll
  | remove (key : String) (baseKey : Option String)
  | removeByKey (baseKey : String)
  | subscribe (key : String) (cb : Nat) (baseKey : Option String)
  | unsubscribe (key : String) (cb : Nat)
  | scheduleGC (key : String) (cacheTime : Option Nat) (baseKey : Option String)
  | fireGC (tid : Nat)

/-- Apply one operation to the cache state. -/
def stepOp {α ε : Type} (s : CacheState α ε) : Op α ε → CacheState α ε
  | .get k b => (s.get k b).1
  | .fetchStart k b => (s.fetchStart k b).1
  | .settle k r now => (s.settle k r now).1
  | .invalidate k => (s.invalidate k).1
  | .invalidateByKey b => s.invalidateByKey b
  | .invalidateAll => s.invalidateAll
  | .remove k b => s.remove k b
  | .removeByKey b => s.removeByKey b
  | .subscribe k cb b => s.subscribe k cb b
  | .unsubscribe k cb => s.unsubscribe k cb
  | .scheduleGC k t b => s.scheduleGC k t b
  | .fireGC tid => s.fireGC tid

/-- Run a sequence of operations from a state. -/
def runOps {α ε : Type} (s : CacheState α ε) (ops : List (Op α ε)) :
    CacheState α ε :=
  ops.foldl stepOp s

/-- The in-flight promise id of a key, if any: the dedup marker. -/
def inflight {α ε : Type} (s : CacheState α ε) (k : String) : Option Nat :=
  (alookup k s.cache).bind (fun e => e.promise)

/-- The recorded settlement outcome of a promise id. -/
def outcomeOf {α ε : Type} (s : CacheState α ε) (pid : Nat) :
    Option (Except ε α) :=
  (s.outcomes.find? (fun o => o.1 = pid)).map Prod.snd

/-- Whether a fetch call ran the producer. -/
def FetchOutcome.isStarted : FetchOutcome → Bool
  | .started _ => true
  | .deduped _ => false

/-- The future returned to the caller of `fetch`. -/
def FetchOutcome.pid : FetchOutcome → Nat
  | .started p => p
  | .deduped p => p

/-- A burst of `fetch` calls on the same key (with the baseKeys of the
successive callers), issued before the producer settles. -/
def runFetches {α ε : Type} (key : String) :
    CacheState α ε → List (Option String) → CacheState α ε × List FetchOutcome
  | s, [] => (s, [])
  | s, b :: bs =>
    let r := s.fetchStart key b
    let rest := runFetches key r.1 bs
    (rest.1, r.2.1 :: rest.2)

/-- A concrete sample entry holding a pending eviction-timer handle 7
(used as a test fixture in witnesses). -/
def sampleTimedEntry : Entry Nat Nat :=
  { data := some 5, error := none, status := .success, fetchedAt := 3,
    promise := none, subscribers := [], gcTimeout := some 7 }

/-- A concrete sample cache state where key "k" holds `sampleTimedEntry`
and its eviction timer 7 is armed (used as a test fixture in witnesses). -/
def sampleTimedState : CacheState Nat Nat :=
  { cache := [("k", sampleTimedEntry)], keyRegistry := [],
    armedTimers := [(7, "k", none)], nextPromiseId := 1, nextTimerId := 8,
    outcomes := [] }

/-- The subscriber/eviction invariant of the cache: entry keys are unique;
an entry with subscribers has no pending GC timer handle; and every armed
eviction timer is the current GC timer handle of a resident entry (so, by
the previous clause, of an entry without subscribers). -/
def GCInv {α ε : Type} (s : CacheState α ε) : Prop :=
  (s.cache.map Prod.fst).Nodup ∧
  (∀ k e, alookup k s.cache = some e → e.subscribers ≠ [] → e.gcTimeout = none) ∧
  (∀ t k b, (t, k, b) ∈ s.armedTimers →
      ∃ e, alookup k s.cache = some e ∧ e.gcTimeout = some t)

/-- An operation is coherent when every optional baseKey argument it
carries is the variation key's own family key (as computed by the fixed
key scheme `baseOf`); this is how every in-repo caller invokes the cache:
`wwElement.vue` always passes `getBaseKey()` alongside the composite page
key. -/
def OpCoherent {α ε : Type} (baseOf : String → String) : Op α ε → Prop
  | .get k b => b = some (baseOf k)
  | .fetchStart k b => b = some (baseOf k)
  | .subscribe k _ b => b = some (baseOf k)
  | .remove k b => b = some (baseOf k)
  | .scheduleGC k _ b => b = some (baseOf k)
  | _ => True

/-- The family-registry invariant: entry keys are unique; every family in
the registry is a nonempty duplicate-free set of variation keys that all
belong to it (their own base key) and are resident; every resident
variation key is registered under its own family; and every armed timer
captured its key's own family key. -/
def RegInv {α ε : Type} (baseOf : String → String) (s : CacheState α ε) :
    Prop :=
  (s.cache.map Prod.fst).Nodup ∧
  (s.keyRegistry.map Prod.fst).Nodup ∧
  (∀ b fam, alookup b s.keyRegistry = some fam →
      fam ≠ [] ∧ fam.Nodup ∧
      ∀ c ∈ fam, baseOf c = b ∧ (alookup c s.cache).isSome) ∧
  (∀ c, (alookup c s.cache).isSome →
      ∃ fam, alookup (baseOf c) s.keyRegistry = some fam ∧ c ∈ fam) ∧
  (∀ t k bk, (t, k, bk) ∈ s.armedTimers → bk = some (baseOf k))

/-! ## Key canonicalization (src/core/utils.js, hashKey)

A key descriptor handed to `hashKey` is a string, an integer-valued
number, an array, or a plain object (recursively).  `hashKey` passes a
top-level string through unchanged and otherwise returns
`JSON.stringify` of the value under a replacer that rebuilds every plain
object with its keys sorted, which is the serialization of the
recursively key-sorted tree.  The serializer below mirrors
`JSON.stringify` for this fragment: strings are quoted with the standard
escapes (quote, backslash, the named control escapes and `\u00XX` for
the remaining control characters), integers print in decimal (the JS
number grammar for integer values of ordinary magnitude), arrays as
comma-separated values in brackets and objects as comma-separated
`"key":value` pairs in braces, with no whitespace. -/

/-- A key descriptor: text, an (integer) number, an ordered list, or a
mapping given as an association list in insertion order. -/
inductive KeyPart where
  | text : String → KeyPart
  | num : Int → KeyPart
  | list : List KeyPart → KeyPart
  | obj : List (String × KeyPart) → KeyPart

/-- Whether a descriptor is top-level text (the pass-through case of
`hashKey`). -/
def KeyPart.isText : KeyPart → Bool
  | .text _ => true
  | _ => false

def isDigit (c : Char) : Bool := 48 ≤ c.toNat && c.toNat ≤ 57

/-- Lower-case hex digit, as produced by JS for `\u00XX` escapes. -/
def hexDigit (n : Nat) : Char :=
  if n < 10 then Char.ofNat (48 + n) else Char.ofNat (87 + n)

def hexVal (c : Char) : Nat :=
  if c.toNat ≤ 57 then c.toNat - 48 else c.toNat - 87

/-- The JSON string escape of one character (`JSON.stringify`). -/
def escapeChar (c : Char) : List Char :=
  if c = '"' then ['\\', '"']
  else if c = '\\' then ['\\', '\\']
  else if c = '\x08' then ['\\', 'b']
  else if c = '\x0c' then ['\\', 'f']
  else if c = '\n' then ['\\', 'n']
  else if c = '\r' then ['\\', 'r']
  else if c = '\t' then ['\\', 't']
  else if c.toNat < 32 then
    ['\\', 'u', '0', '0', hexDigit (c.toNat / 16), hexDigit (c.toNat % 16)]
  else [c]

def escapeList : List Char → List Char
  | [] => []
  | c :: cs => escapeChar c ++ escapeList cs

/-- A JSON string literal: quote, escaped content, quote. -/
def quoteChars (s : List Char) : List Char :=
  '"' :: (escapeList s ++ ['"'])

/-- Decimal digits of a natural number. -/
def natDigits (n : Nat) : List Char :=
  if h : n < 10 then [Char.ofNat (48 + n)]
  else natDigits (n / 10) ++ [Char.ofNat (48 + n % 10)]
termination_by n
decreasing_by
  exact Nat.div_lt_self (by omega) (by omega)

/-- Decimal notation of an integer (JSON number for integer values). -/
def intChars (i : Int) : List Char :=
  if i < 0 then '-' :: natDigits i.natAbs else natDigits i.natAbs

/-- Insert an entry into a key-sorted entry list (the model of
`Object.keys(val).sort()` rebuilding the object). -/
def insEntry (kv : String × KeyPart) :
    List (String × KeyPart) → List (String × KeyPart)
  | [] => [kv]
  | h :: t => if kv.1 ≤ h.1 then kv :: h :: t else h :: insEntry kv t

/-- Sort an entry list by key (insertion sort; with unique keys this is
the unique key-sorted permutation, so it agrees with any sort). -/
def sortEntries : List (String × KeyPart) → List (String × KeyPart)
  | [] => []
  | h :: t => insEntry h (sortEntries t)

mutual
/-- Recursively sort every mapping of a descriptor by key: the effect of
the `hashKey` replacer, which rebuilds each object with sorted keys at
every nesting level. -/
def sortAll : KeyPart → KeyPart
  | .text s => .text s
  | .num n => .num n
  | .list xs => .list (sortAllList xs)
  | .obj kvs => .obj (sortEntries (sortAllEntries kvs))

def sortAllList : List KeyPart → List KeyPart
  | [] => []
  | x :: xs => sortAll x :: sortAllList xs

def sortAllEntries :
    List (String × KeyPart) → List (String × KeyPart)
  | [] => []
  | kv :: kvs => (kv.1, sortAll kv.2) :: sortAllEntries kvs
end

mutual
/-- `JSON.stringify` (no spacing) of a descriptor, over character
lists. -/
def serK : KeyPart → List Char
  | .text s => quoteChars s.data
  | .num n => intChars n
  | .list xs => '[' :: (serKList xs ++ [']'])
  | .obj kvs => '\x7b' :: (serKObj kvs ++ ['\x7d'])

def serKList : List KeyPart → List Char
  | [] => []
  | [x] => serK x
  | x :: y :: xs => serK x ++ (',' :: serKList (y :: xs))

def serKObj : List (String × KeyPart) → List Char
  | [] => []
  | [kv] => quoteChars kv.1.data ++ (':' :: serK kv.2)
  | kv :: kv2 :: kvs =>
    quoteChars kv.1.data ++ (':' :: serK kv.2) ++ (',' :: serKObj (kv2 :: kvs))
end

/-- `hashKey` from `src/core/utils.js`: a string passes through
unchanged; any other descriptor is `JSON.stringify`-ed with objects
rebuilt key-sorted at every level. -/
def hashKey : KeyPart → String
  | .text s => s
  | .num n => ⟨serK (sortAll (.num n))⟩
  | .list xs => ⟨serK (sortAll (.list xs))⟩
  | .obj kvs => ⟨serK (sortAll (.obj kvs))⟩

/-- Association lookup among a mapping's entries. -/
def lookupKV (k : String) : List (String × KeyPart) → Option KeyPart
  | [] => none
  | kv :: t => if kv.1 = k then some kv.2 else lookupKV k t

/-- Size bound for lookup results, used for the termination of the
structural-equality test below. -/
theorem lookupKV_sizeOf (k : String) :
    ∀ (l : List (String × KeyPart)) (v : KeyPart),
      lookupKV k l = some v → sizeOf v < sizeOf l := by
  intro l
  induction l with
  | nil => intro v h; simp [lookupKV] at h
  | cons kv t ih =>
    intro v h
    simp only [lookupKV] at h
    by_cases hk : kv.1 = k
    · rw [if_pos hk] at h
      have hv : v = kv.2 := (Option.some.inj h).symm
      subst hv
      have h1 : sizeOf kv.2 ≤ sizeOf kv := by
        obtain ⟨k1, v1⟩ := kv
        simp
      have h2 : sizeOf kv < sizeOf (kv :: t) := by
        simp only [List.cons.sizeOf_spec]
        omega
      omega
    · rw [if_neg hk] at h
      have h3 := ih v h
      have h4 : sizeOf t < sizeOf (kv :: t) := by
        simp only [List.cons.sizeOf_spec]
        omega
      omega

mutual
/-- Structural equality of descriptors: texts and numbers compare by
value, lists elementwise in order, and mappings as finite maps — same
size and, for every entry of the left mapping, a structurally equal
entry in the right one under the same key (with duplicate-free keys this
is the usual equality of finite maps, insensitive to insertion order). -/
def structEq : KeyPart → KeyPart → Bool
  | .text s, .text t => s = t
  | .num n, .num m => n = m
  | .list xs, .list ys => structEqList xs ys
  | .obj xs, .obj ys => xs.length = ys.length && structEqObj xs ys
  | _, _ => false
termination_by a b => sizeOf a + sizeOf b
decreasing_by
  all_goals simp_wf
  all_goals omega

def structEqList : List KeyPart → List KeyPart → Bool
  | [], [] => true
  | x :: xs, y :: ys => structEq x y && structEqList xs ys
  | _, _ => false
termination_by xs ys => sizeOf xs + sizeOf ys
decreasing_by
  all_goals simp_wf
  all_goals omega

def structEqObj : List (String × KeyPart) → List (String × KeyPart) → Bool
  | [], _ => true
  | kv :: t, ys =>
    (match h : lookupKV kv.1 ys with
     | some v => structEq kv.2 v
     | none => false) && structEqObj t ys
termination_by xs ys => sizeOf xs + sizeOf ys
decreasing_by
  all_goals simp_wf
  all_goals try omega
  all_goals
    (have h5 := lookupKV_sizeOf kv.1 ys v h
     have h6 : sizeOf kv.2 ≤ sizeOf kv := by
       obtain ⟨ka, kb⟩ := kv
       simp
     omega)
end

mutual
/-- Well-formedness: every mapping of the descriptor has duplicate-free
keys (JS objects cannot carry duplicate keys). -/
def wfKey : KeyPart → Bool
  | .text _ => true
  | .num _ => true
  | .list xs => wfKeyList xs
  | .obj kvs => decide ((kvs.map Prod.fst).Nodup) && wfKeyEntries kvs

def wfKeyList : List KeyPart → Bool
  | [] => true
  | x :: xs => wfKey x && wfKeyList xs

def wfKeyEntries : List (String × KeyPart) → Bool
  | [] => true
  | kv :: kvs => wfKey kv.2 && wfKeyEntries kvs
end

/-- A character list does not begin with a decimal digit (the separator
condition under which a serialized number can be read back
unambiguously). -/
def headOk : List Char → Prop
  | [] => True
  | c :: _ => isDigit c = false
/-! ## A reader for the serialized form

To show that canonicalization has no collisions we give a deterministic
reader for the serializer's output and prove the round trip
`parse (serialize a ++ rest) = (a, rest)`; injectivity of the serializer
is an immediate consequence.  The reader is fuelled to keep it
structurally recursive. -/

/-- Value of a list of decimal digits. -/
def digitsVal (ds : List Char) : Nat :=
  ds.foldl (fun acc c => acc * 10 + (c.toNat - 48)) 0

/-- Split off the longest prefix of decimal digits. -/
def takeDigits : List Char → List Char × List Char
  | [] => ([], [])
  | c :: r =>
    if isDigit c then
      let p := takeDigits r
      (c :: p.1, p.2)
    else ([], c :: r)

/-- Read a JSON integer (optional minus sign, then digits). -/
def parseNum (l : List Char) : Option (KeyPart × List Char) :=
  match l with
  | '-' :: r =>
    let p := takeDigits r
    if p.1 = [] then none else some (.num (-(digitsVal p.1 : Int)), p.2)
  | _ =>
    let p := takeDigits l
    if p.1 = [] then none else some (.num ((digitsVal p.1 : Int)), p.2)

/-- Read one (possibly escaped) character of a JSON string body; fails on
an unescaped closing quote. -/
def readEsc : List Char → Option (Char × List Char)
  | '\\' :: 'u' :: _ :: _ :: h₁ :: h₂ :: r =>
    some (Char.ofNat (hexVal h₁ * 16 + hexVal h₂), r)
  | '\\' :: d :: r =>
    if d = '"' then some ('"', r)
    else if d = '\\' then some ('\\', r)
    else if d = 'b' then some ('\x08', r)
    else if d = 'f' then some ('\x0c', r)
    else if d = 'n' then some ('\n', r)
    else if d = 'r' then some ('\r', r)
    else if d = 't' then some ('\t', r)
    else none
  | '"' :: _ => none
  | c :: r => some (c, r)
  | [] => none

theorem readEsc_length :
    ∀ (l : List Char) (c : Char) (r : List Char),
      readEsc l = some (c, r) → r.length < l.length := by
  intro l c r h
  unfold readEsc at h
  split at h <;>
    first
      | (split_ifs at h <;> simp_all)
      | simp_all
  all_goals omega

/-- Read a JSON string body up to its closing quote. -/
def readStr (l : List Char) : Option (List Char × List Char) :=
  match hE : readEsc l with
  | some (c, r) =>
    match readStr r with
    | some (s, r') => some (c :: s, r')
    | none => none
  | none =>
    match l with
    | '"' :: r => some ([], r)
    | _ => none
termination_by l.length
decreasing_by
  exact readEsc_length l c r hE

mutual
/-- Fuelled reader for a serialized descriptor. -/
def parseK : Nat → List Char → Option (KeyPart × List Char)
  | 0, _ => none
  | _ + 1, '"' :: r =>
    (match readStr r with
     | some (s, r') => some (.text ⟨s⟩, r')
     | none => none)
  | fuel + 1, '[' :: r =>
    (match parseElems fuel r with
     | some (xs, r') => some (.list xs, r')
     | none => none)
  | fuel + 1, '\x7b' :: r =>
    (match parseEntries fuel r with
     | some (kvs, r') => some (.obj kvs, r')
     | none => none)
  | _ + 1, l => parseNum l

/-- Fuelled reader for the comma-separated elements of a serialized
list, up to the closing bracket. -/
def parseElems : Nat → List Char → Option (List KeyPart × List Char)
  | 0, _ => none
  | _ + 1, ']' :: r => some ([], r)
  | fuel + 1, l =>
    (match parseK fuel l with
     | some (x, r) =>
       (match r with
        | ',' :: r' =>
          (match parseElems fuel r' with
           | some (xs, r'') => some (x :: xs, r'')
           | none => none)
        | ']' :: r' => some ([x], r')
        | _ => none)
     | none => none)

/-- Fuelled reader for the comma-separated entries of a serialized
mapping, up to the closing brace. -/
def parseEntries :
    Nat → List Char → Option (List (String × KeyPart) × List Char)
  | 0, _ => none
  | _ + 1, '\x7d' :: r => some ([], r)
  | fuel + 1, '"' :: r =>
    (match readStr r with
     | some (s, r₁) =>
       (match r₁ with
        | ':' :: r₂ =>
          (match parseK fuel r₂ with
           | some (v, r₃) =>
             (match r₃ with
              | ',' :: r₄ =>
                (match parseEntries fuel r₄ with
                 | some (kvs, r₅) => some ((⟨s⟩, v) :: kvs, r₅)
                 | none => none)
              | '\x7d' :: r₄ => some ([(⟨s⟩, v)], r₄)
              | _ => none)
           | none => none)
        | _ => none)
     | none => none)
  | _ + 1, _ => none
end

/-! ## Theorems for the key codec

Round-trip of the reader against the serializer, injectivity of the
serializer, agreement of insertion-sort canonicalization with
structural equality of descriptors, and the resulting collision
behaviour of `hashKey`. -/

theorem hexVal_hexDigit : ∀ n : Nat, n < 16 → hexVal (hexDigit n) = n := by
  decide

theorem toNat_ofNat_small (n : Nat) (h : n < 128) : (Char.ofNat n).toNat = n := by
  have hv : n < 55296 ∨ 57343 < n ∧ n < 1114112 := Or.inl (by omega)
  simp [Char.ofNat, Char.ofNatAux, Char.toNat, hv, UInt32.toNat, BitVec.toNat_ofNatLt]

theorem readEsc_escapeChar (c : Char) (r : List Char) :
    readEsc (escapeChar c ++ r) = some (c, r) := by
  unfold escapeChar
  split_ifs with h1 h2 h3 h4 h5 h6 h7 h8
  · subst h1; rfl
  · subst h2; rfl
  · subst h3; rfl
  · subst h4; rfl
  · subst h5; rfl
  · subst h6; rfl
  · subst h7; rfl
  · show readEsc ('\\' :: 'u' :: '0' :: '0' ::
        hexDigit (c.toNat / 16) :: hexDigit (c.toNat % 16) :: r) = some (c, r)
    rw [show readEsc ('\\' :: 'u' :: '0' :: '0' ::
        hexDigit (c.toNat / 16) :: hexDigit (c.toNat % 16) :: r) =
        some (Char.ofNat (hexVal (hexDigit (c.toNat / 16)) * 16 +
          hexVal (hexDigit (c.toNat % 16))), r) from rfl]
    rw [hexVal_hexDigit _ (by omega), hexVal_hexDigit _ (by omega)]
    rw [show c.toNat / 16 * 16 + c.toNat % 16 = c.toNat by omega]
    rw [Char.ofNat_toNat]
  · show readEsc (c :: r) = some (c, r)
    unfold readEsc
    split <;> simp_all

theorem readStr_eq_some (l : List Char) (c : Char) (r : List Char)
    (h : readEsc l = some (c, r)) :
    readStr l = (match readStr r with
                 | some (s, t) => some (c :: s, t)
                 | none => none) := by
  rw [readStr]
  split
  · rename_i c2 r2 hE
    rw [h] at hE
    obtain ⟨rfl, rfl⟩ := Prod.mk.injEq .. ▸ Option.some.inj hE
    rfl
  · rename_i hE
    rw [h] at hE
    exact absurd hE (by simp)

theorem readStr_eq_none (l : List Char) (h : readEsc l = none) :
    readStr l = (match l with
                 | '"' :: r => some ([], r)
                 | _ => none) := by
  rw [readStr]
  split
  · rename_i c2 r2 hE
    rw [h] at hE
    exact absurd hE (by simp)
  · split <;> rfl

theorem readEsc_quote (t : List Char) : readEsc ('"' :: t) = none := rfl

theorem readStr_round (s m : List Char) :
    readStr (escapeList s ++ ('"' :: m)) = some (s, m) := by
  induction s with
  | nil =>
    rw [show escapeList [] ++ ('"' :: m) = '"' :: m from rfl]
    rw [readStr_eq_none _ (readEsc_quote m)]
    rfl
  | cons c cs ih =>
    rw [show escapeList (c :: cs) = escapeChar c ++ escapeList cs from rfl]
    rw [List.append_assoc]
    rw [readStr_eq_some _ c _ (readEsc_escapeChar c _), ih]

theorem digitsVal_append (ds : List Char) (c : Char) :
    digitsVal (ds ++ [c]) = 10 * digitsVal ds + (c.toNat - 48) := by
  simp [digitsVal, List.foldl_append]
  omega

theorem natDigits_ne_nil (n : Nat) : natDigits n ≠ [] := by
  rw [natDigits]
  split <;> simp

theorem natDigits_digits (n : Nat) :
    ∀ c ∈ natDigits n, isDigit c = true := by
  induction n using Nat.strong_induction_on with
  | _ n ih =>
    rw [natDigits]
    split
    · intro c hc
      simp at hc
      subst hc
      simp [isDigit, toNat_ofNat_small (48 + n) (by omega)]
      omega
    · intro c hc
      rw [List.mem_append] at hc
      rcases hc with hc | hc
      · exact ih (n / 10) (Nat.div_lt_self (by omega) (by omega)) c hc
      · simp at hc
        subst hc
        have hm : n % 10 < 10 := Nat.mod_lt _ (by omega)
        simp [isDigit, toNat_ofNat_small (48 + n % 10) (by omega)]
        omega

theorem digitsVal_natDigits (n : Nat) : digitsVal (natDigits n) = n := by
  induction n using Nat.strong_induction_on with
  | _ n ih =>
    rw [natDigits]
    split
    · simp [digitsVal, toNat_ofNat_small (48 + n) (by omega)]
    · rw [digitsVal_append, ih (n / 10) (Nat.div_lt_self (by omega) (by omega))]
      have hm : n % 10 < 10 := Nat.mod_lt _ (by omega)
      rw [toNat_ofNat_small (48 + n % 10) (by omega)]
      omega

theorem takeDigits_append (ds r : List Char)
    (hd : ∀ c ∈ ds, isDigit c = true) (hr : headOk r) :
    takeDigits (ds ++ r) = (ds, r) := by
  induction ds with
  | nil =>
    cases r with
    | nil => rfl
    | cons c t =>
      have : isDigit c = false := hr
      simp [takeDigits, this]
  | cons c ds ih =>
    have hc : isDigit c = true := hd c (by simp)
    have ih2 := ih (fun x hx => hd x (by simp [hx]))
    simp [takeDigits, hc, ih2]

theorem natDigits_head (n : Nat) :
    ∃ c t, natDigits n = c :: t ∧ isDigit c = true := by
  obtain ⟨c, t, h⟩ := List.exists_cons_of_ne_nil (natDigits_ne_nil n)
  exact ⟨c, t, h, natDigits_digits n c (h ▸ List.mem_cons_self c t)⟩

theorem parseNum_intChars (i : Int) (r : List Char) (hr : headOk r) :
    parseNum (intChars i ++ r) = some (.num i, r) := by
  by_cases hi : i < 0
  · rw [show intChars i = '-' :: natDigits i.natAbs by simp [intChars, hi]]
    rw [List.cons_append]
    rw [show parseNum ('-' :: (natDigits i.natAbs ++ r)) =
        (let p := takeDigits (natDigits i.natAbs ++ r)
         if p.1 = [] then none
         else some (.num (-(digitsVal p.1 : Int)), p.2)) from rfl]
    rw [takeDigits_append _ _ (natDigits_digits _) hr]
    simp only [if_neg (natDigits_ne_nil i.natAbs), digitsVal_natDigits]
    have he : -((i.natAbs : Int)) = i := by omega
    rw [he]
  · rw [show intChars i = natDigits i.natAbs by simp [intChars, hi]]
    obtain ⟨c, t, hct, hc⟩ := natDigits_head i.natAbs
    have hcm : '-' ≠ c := by
      intro h
      rw [← h] at hc
      simp [isDigit] at hc
    rw [hct, List.cons_append]
    rw [show parseNum (c :: (t ++ r)) =
        (let p := takeDigits (c :: (t ++ r))
         if p.1 = [] then none
         else some (.num ((digitsVal p.1 : Int)), p.2)) by
      unfold parseNum
      split
      · rename_i heq
        exact absurd (List.cons.inj heq).1.symm hcm
      · rfl]
    rw [show (c :: (t ++ r) : List Char) = (c :: t) ++ r from rfl, ← hct]
    rw [takeDigits_append _ _ (natDigits_digits _) hr]
    simp only [if_neg (natDigits_ne_nil i.natAbs), digitsVal_natDigits]
    have he : ((i.natAbs : Int)) = i := by omega
    rw [he]

theorem string_eta (s : String) : (⟨s.data⟩ : String) = s := rfl

theorem serK_head (a : KeyPart) :
    ∃ c t, serK a = c :: t ∧
      (c = '"' ∨ c = '[' ∨ c = '\x7b' ∨ c = '-' ∨ isDigit c = true) := by
  cases a with
  | text s => exact ⟨'"', _, rfl, Or.inl rfl⟩
  | num n =>
    by_cases hn : n < 0
    · refine ⟨'-', natDigits n.natAbs, ?_, by simp⟩
      simp [serK, intChars, hn]
    · obtain ⟨c, t, hct, hc⟩ := natDigits_head n.natAbs
      refine ⟨c, t, ?_, by simp [hc]⟩
      simp [serK, intChars, hn, hct]
  | list xs => exact ⟨'[', _, rfl, by simp⟩
  | obj kvs => exact ⟨'\x7b', _, rfl, by simp⟩

theorem kp_sizeOf_pos (a : KeyPart) : 0 < sizeOf a := by
  cases a <;> simp

theorem list_sizeOf_pos {α : Type} [SizeOf α] (l : List α) : 0 < sizeOf l := by
  cases l <;> simp

theorem digit_ne (c : Char) (h : isDigit c = true) :
    c ≠ '"' ∧ c ≠ '[' ∧ c ≠ '\x7b' ∧ c ≠ ']' ∧ c ≠ ',' ∧ c ≠ '\x7d' ∧
      c ≠ ':' ∧ c ≠ '-' := by
  refine ⟨?_, ?_, ?_, ?_, ?_, ?_, ?_, ?_⟩ <;>
    (intro hc; subst hc; simp [isDigit] at h)

theorem intChars_head (n : Int) :
    ∃ c t, intChars n = c :: t ∧ (c = '-' ∨ isDigit c = true) := by
  by_cases hn : n < 0
  · exact ⟨'-', natDigits n.natAbs, by simp [intChars, hn], Or.inl rfl⟩
  · obtain ⟨c, t, hct, hc⟩ := natDigits_head n.natAbs
    exact ⟨c, t, by simp [intChars, hn, hct], Or.inr hc⟩

theorem pk_quote (fuel : Nat) (r : List Char) :
    parseK (fuel + 1) ('"' :: r) =
      (match readStr r with
       | some (s, t) => some (.text ⟨s⟩, t)
       | none => none) := rfl

theorem pk_bracket (fuel : Nat) (r : List Char) :
    parseK (fuel + 1) ('[' :: r) =
      (match parseElems fuel r with
       | some (xs, t) => some (.list xs, t)
       | none => none) := rfl

theorem pk_brace (fuel : Nat) (r : List Char) :
    parseK (fuel + 1) ('\x7b' :: r) =
      (match parseEntries fuel r with
       | some (kvs, t) => some (.obj kvs, t)
       | none => none) := rfl

theorem pk_other (fuel : Nat) (c : Char) (t : List Char)
    (h1 : c ≠ '"') (h2 : c ≠ '[') (h3 : c ≠ '\x7b') :
    parseK (fuel + 1) (c :: t) = parseNum (c :: t) := by
  unfold parseK
  split <;> simp_all

theorem pe_close (fuel : Nat) (r : List Char) :
    parseElems (fuel + 1) (']' :: r) = some ([], r) := rfl

theorem pe_go (fuel : Nat) (c : Char) (t : List Char) (h : c ≠ ']') :
    parseElems (fuel + 1) (c :: t) =
      (match parseK fuel (c :: t) with
       | some (x, r) =>
         (match r with
          | ',' :: r' =>
            (match parseElems fuel r' with
             | some (xs, r'') => some (x :: xs, r'')
             | none => none)
          | ']' :: r' => some ([x], r')
          | _ => none)
       | none => none) := by
  conv_lhs => unfold parseElems
  split <;> simp_all

theorem pn_close (fuel : Nat) (r : List Char) :
    parseEntries (fuel + 1) ('\x7d' :: r) = some ([], r) := rfl

theorem pn_quote (fuel : Nat) (r : List Char) :
    parseEntries (fuel + 1) ('"' :: r) =
      (match readStr r with
       | some (s, r₁) =>
         (match r₁ with
          | ':' :: r₂ =>
            (match parseK fuel r₂ with
             | some (v, r₃) =>
               (match r₃ with
                | ',' :: r₄ =>
                  (match parseEntries fuel r₄ with
                   | some (kvs, r₅) => some ((⟨s⟩, v) :: kvs, r₅)
                   | none => none)
                | '\x7d' :: r₄ => some ([(⟨s⟩, v)], r₄)
                | _ => none)
             | none => none)
          | _ => none)
       | none => none) := rfl

theorem headOk_cons (c : Char) (t : List Char) (h : isDigit c = false) :
    headOk (c :: t) := h

theorem parse_round : ∀ fuel : Nat,
    (∀ a r, sizeOf a ≤ fuel → headOk r →
      parseK fuel (serK a ++ r) = some (a, r)) ∧
    (∀ xs r, sizeOf xs ≤ fuel →
      parseElems fuel (serKList xs ++ (']' :: r)) = some (xs, r)) ∧
    (∀ kvs r, sizeOf kvs ≤ fuel →
      parseEntries fuel (serKObj kvs ++ ('\x7d' :: r)) = some (kvs, r)) := by
  intro fuel
  induction fuel with
  | zero =>
    refine ⟨?_, ?_, ?_⟩
    · intro a r hs hr
      exact absurd hs (by have := kp_sizeOf_pos a; omega)
    · intro xs r hs
      exact absurd hs (by have := list_sizeOf_pos xs; omega)
    · intro kvs r hs
      exact absurd hs (by have := list_sizeOf_pos kvs; omega)
  | succ fuel ih =>
    obtain ⟨ihK, ihL, ihO⟩ := ih
    refine ⟨?_, ?_, ?_⟩
    · intro a r hs hr
      cases a with
      | text s =>
        rw [show serK (.text s) ++ r =
            '"' :: (escapeList s.data ++ ('"' :: r)) by
          simp [serK, quoteChars]]
        rw [pk_quote, readStr_round]
      | num n =>
        obtain ⟨c, t, hct, hc⟩ := intChars_head n
        rw [show serK (.num n) ++ r = c :: (t ++ r) by
          rw [show serK (.num n) = intChars n from rfl, hct]; rfl]
        have hne : c ≠ '"' ∧ c ≠ '[' ∧ c ≠ '\x7b' := by
          rcases hc with hc | hc
          · subst hc
            exact ⟨by decide, by decide, by decide⟩
          · obtain ⟨d1, d2, d3, _⟩ := digit_ne c hc
            exact ⟨d1, d2, d3⟩
        rw [pk_other fuel c (t ++ r) hne.1 hne.2.1 hne.2.2]
        rw [show (c :: (t ++ r) : List Char) = (c :: t) ++ r from rfl, ← hct]
        exact parseNum_intChars n r hr
      | list xs =>
        rw [show serK (.list xs) ++ r =
            '[' :: (serKList xs ++ (']' :: r)) by
          simp [serK]]
        rw [pk_bracket, ihL xs r (by simp at hs; omega)]
      | obj kvs =>
        rw [show serK (.obj kvs) ++ r =
            '\x7b' :: (serKObj kvs ++ ('\x7d' :: r)) by
          simp [serK]]
        rw [pk_brace, ihO kvs r (by simp at hs; omega)]
    · intro xs r hs
      cases xs with
      | nil =>
        rw [show serKList [] ++ (']' :: r) = ']' :: r from rfl, pe_close]
      | cons x xs2 =>
        obtain ⟨c, t, hct, hc⟩ := serK_head x
        have hne : c ≠ ']' := by
          rcases hc with hc | hc | hc | hc | hc
          · subst hc; decide
          · subst hc; decide
          · subst hc; decide
          · subst hc; decide
          · exact (digit_ne c hc).2.2.2.1
        cases xs2 with
        | nil =>
          have hx : sizeOf x ≤ fuel := by
            simp at hs
            omega
          have hIH := ihK x (']' :: r) hx (headOk_cons _ _ (by decide))
          rw [show serKList [x] ++ (']' :: r) = c :: (t ++ (']' :: r)) by
            rw [show serKList [x] = serK x from rfl, hct]; rfl]
          rw [pe_go fuel c _ hne]
          rw [show (c :: (t ++ (']' :: r)) : List Char)
              = (c :: t) ++ (']' :: r) from rfl, ← hct]
          rw [hIH]
          rfl
        | cons y ys =>
          have hx : sizeOf x ≤ fuel := by
            have := list_sizeOf_pos (y :: ys)
            simp at hs ⊢
            simp [List.cons.sizeOf_spec] at this ⊢
            omega
          have hyys : sizeOf (y :: ys) ≤ fuel := by
            have := kp_sizeOf_pos x
            simp at hs
            simp [List.cons.sizeOf_spec]
            omega
          have hIH := ihK x (',' :: (serKList (y :: ys) ++ (']' :: r))) hx
            (headOk_cons _ _ (by decide))
          have hIH2 := ihL (y :: ys) r hyys
          rw [show serKList (x :: y :: ys) ++ (']' :: r)
              = c :: (t ++ (',' :: (serKList (y :: ys) ++ (']' :: r)))) by
            rw [show serKList (x :: y :: ys)
                = serK x ++ (',' :: serKList (y :: ys)) from rfl, hct]
            simp]
          rw [pe_go fuel c _ hne]
          rw [show (c :: (t ++ (',' :: (serKList (y :: ys) ++ (']' :: r))))
                : List Char)
              = (c :: t) ++ (',' :: (serKList (y :: ys) ++ (']' :: r)))
              from rfl, ← hct]
          rw [hIH]
          simp only []
          rw [hIH2]
    · intro kvs r hs
      cases kvs with
      | nil =>
        rw [show serKObj [] ++ ('\x7d' :: r) = '\x7d' :: r from rfl, pn_close]
      | cons kv kvs2 =>
        obtain ⟨k1, v1⟩ := kv
        cases kvs2 with
        | nil =>
          have hv : sizeOf v1 ≤ fuel := by
            simp at hs
            omega
          have hIH := ihK v1 ('\x7d' :: r) hv (headOk_cons _ _ (by decide))
          rw [show serKObj [(k1, v1)] ++ ('\x7d' :: r)
              = '"' :: (escapeList k1.data ++
                  ('"' :: (':' :: (serK v1 ++ ('\x7d' :: r))))) by
            rw [show serKObj [(k1, v1)]
                = quoteChars k1.data ++ (':' :: serK v1) from rfl, quoteChars]
            simp]
          rw [pn_quote, readStr_round]
          simp only []
          rw [hIH]
          rfl
        | cons kv2 kvs3 =>
          have hv : sizeOf v1 ≤ fuel := by
            have := list_sizeOf_pos (kv2 :: kvs3)
            simp at hs
            simp [List.cons.sizeOf_spec] at this
            omega
          have hrest : sizeOf (kv2 :: kvs3) ≤ fuel := by
            simp at hs
            simp [List.cons.sizeOf_spec]
            omega
          have hIH := ihK v1
            (',' :: (serKObj (kv2 :: kvs3) ++ ('\x7d' :: r))) hv
            (headOk_cons _ _ (by decide))
          have hIH2 := ihO (kv2 :: kvs3) r hrest
          rw [show serKObj ((k1, v1) :: kv2 :: kvs3) ++ ('\x7d' :: r)
              = '"' :: (escapeList k1.data ++
                  ('"' :: (':' :: (serK v1 ++
                    (',' :: (serKObj (kv2 :: kvs3) ++ ('\x7d' :: r))))))) by
            rw [show serKObj ((k1, v1) :: kv2 :: kvs3)
                = quoteChars k1.data ++ (':' :: serK v1) ++
                    (',' :: serKObj (kv2 :: kvs3)) from rfl, quoteChars]
            simp]
          rw [pn_quote, readStr_round]
          simp only []
          rw [hIH]
          simp only []
          rw [hIH2]

theorem insEntry_perm (kv : String × KeyPart)
    (l : List (String × KeyPart)) :
    List.Perm (insEntry kv l) (kv :: l) := by
  induction l with
  | nil => rfl
  | cons h t ih =>
    rw [insEntry]
    split
    · exact List.Perm.refl _
    · exact List.Perm.trans (List.Perm.cons h ih) (List.Perm.swap kv h t)

theorem sortEntries_perm (l : List (String × KeyPart)) :
    List.Perm (sortEntries l) l := by
  induction l with
  | nil => rfl
  | cons h t ih =>
    exact List.Perm.trans (insEntry_perm h (sortEntries t))
      (List.Perm.cons h ih)

theorem insEntry_sorted (kv : String × KeyPart)
    (l : List (String × KeyPart))
    (hs : List.Pairwise (fun a b : String × KeyPart => a.1 ≤ b.1) l) :
    List.Pairwise (fun a b : String × KeyPart => a.1 ≤ b.1)
      (insEntry kv l) := by
  induction l with
  | nil => simp [insEntry]
  | cons h t ih =>
    rw [insEntry]
    rw [List.pairwise_cons] at hs
    split
    · rename_i hle
      rw [List.pairwise_cons]
      refine ⟨?_, List.pairwise_cons.mpr hs⟩
      intro b hb
      rcases List.mem_cons.mp hb with hb | hb
      · subst hb; exact hle
      · exact le_trans hle (hs.1 b hb)
    · rename_i hgt
      rw [List.pairwise_cons]
      refine ⟨?_, ih hs.2⟩
      intro b hb
      have hb2 := (insEntry_perm kv t).mem_iff.mp hb
      rcases List.mem_cons.mp hb2 with hb2 | hb2
      · subst hb2; exact le_of_not_le hgt
      · exact hs.1 b hb2

theorem sortEntries_sorted (l : List (String × KeyPart)) :
    List.Pairwise (fun a b : String × KeyPart => a.1 ≤ b.1)
      (sortEntries l) := by
  induction l with
  | nil => simp [sortEntries]
  | cons h t ih => exact insEntry_sorted h (sortEntries t) ih

theorem lookupKV_mem (k : String) (l : List (String × KeyPart))
    (v : KeyPart) (h : lookupKV k l = some v) : (k, v) ∈ l := by
  induction l with
  | nil => simp [lookupKV] at h
  | cons kv t ih =>
    rw [lookupKV] at h
    split at h
    · rename_i hk
      obtain rfl := Option.some.inj h
      subst hk
      exact List.mem_cons_self _ _
    · exact List.mem_cons_of_mem _ (ih h)

theorem lookupKV_of_mem (k : String) (l : List (String × KeyPart))
    (v : KeyPart) (hn : (l.map Prod.fst).Nodup) (h : (k, v) ∈ l) :
    lookupKV k l = some v := by
  induction l with
  | nil => simp at h
  | cons kv t ih =>
    rw [List.map_cons, List.nodup_cons] at hn
    rcases List.mem_cons.mp h with h | h
    · rw [← h, lookupKV, if_pos rfl]
    · have hk : kv.1 ≠ k := by
        intro hk
        exact hn.1 (hk ▸ List.mem_map_of_mem Prod.fst h)
      rw [lookupKV, if_neg hk]
      exact ih hn.2 h

theorem lookupKV_none_iff (k : String) (l : List (String × KeyPart)) :
    lookupKV k l = none ↔ k ∉ l.map Prod.fst := by
  induction l with
  | nil => simp [lookupKV]
  | cons kv t ih =>
    rw [lookupKV]
    constructor
    · intro h
      split at h
      · simp at h
      · rename_i hk
        simp only [List.map_cons, List.mem_cons]
        rintro (h2 | h2)
        · exact hk h2.symm
        · exact (ih.mp h) h2
    · intro h
      simp only [List.map_cons, List.mem_cons] at h
      push_neg at h
      rw [if_neg (fun hk => h.1 hk.symm)]
      exact ih.mpr h.2

theorem lookupKV_perm (l₁ l₂ : List (String × KeyPart))
    (hp : List.Perm l₁ l₂) (hn : (l₁.map Prod.fst).Nodup) (k : String) :
    lookupKV k l₁ = lookupKV k l₂ := by
  have hn2 : (l₂.map Prod.fst).Nodup := ((hp.map Prod.fst).nodup_iff).mp hn
  cases hl : lookupKV k l₁ with
  | some v =>
    exact (lookupKV_of_mem k l₂ v hn2 (hp.mem_iff.mp (lookupKV_mem k l₁ v hl))).symm
  | none =>
    refine ((lookupKV_none_iff k l₂).mpr ?_).symm
    intro hk
    exact (lookupKV_none_iff k l₁).mp hl (((hp.map Prod.fst).mem_iff).mpr hk)

theorem sortAllEntries_keys (l : List (String × KeyPart)) :
    (sortAllEntries l).map Prod.fst = l.map Prod.fst := by
  induction l with
  | nil => rfl
  | cons kv t ih => simp [sortAllEntries, ih]

theorem sortAllEntries_length (l : List (String × KeyPart)) :
    (sortAllEntries l).length = l.length := by
  induction l with
  | nil => rfl
  | cons kv t ih => simp [sortAllEntries, ih]

theorem lookupKV_sortAllEntries (k : String)
    (l : List (String × KeyPart)) :
    lookupKV k (sortAllEntries l) = (lookupKV k l).map sortAll := by
  induction l with
  | nil => rfl
  | cons kv t ih =>
    rw [sortAllEntries, lookupKV, lookupKV]
    by_cases hk : kv.1 = k
    · rw [if_pos hk, if_pos (show (kv.1, sortAll kv.2).1 = k from hk)]
      rfl
    · rw [if_neg hk, if_neg (show ¬((kv.1, sortAll kv.2).1 = k) from hk)]
      exact ih

theorem headOk_nil : headOk [] := trivial

theorem serK_inj (a b : KeyPart) (h : serK a = serK b) : a = b := by
  have h₁ := (parse_round (sizeOf a + sizeOf b)).1 a [] (by omega) headOk_nil
  have h₂ := (parse_round (sizeOf a + sizeOf b)).1 b [] (by omega) headOk_nil
  rw [List.append_nil] at h₁ h₂
  rw [h, h₂] at h₁
  exact ((Prod.mk.injEq _ _ _ _).mp (Option.some.inj h₁)).1.symm

theorem sorted_lookup_ext :
    ∀ (l₁ l₂ : List (String × KeyPart)),
      List.Pairwise (fun a b : String × KeyPart => a.1 ≤ b.1) l₁ →
      List.Pairwise (fun a b : String × KeyPart => a.1 ≤ b.1) l₂ →
      (l₁.map Prod.fst).Nodup → (l₂.map Prod.fst).Nodup →
      (∀ k, lookupKV k l₁ = lookupKV k l₂) → l₁ = l₂ := by
  intro l₁
  induction l₁ with
  | nil =>
    intro l₂ _ _ _ _ hl
    cases l₂ with
    | nil => rfl
    | cons kv t =>
      have := hl kv.1
      rw [lookupKV, lookupKV, if_pos rfl] at this
      simp at this
  | cons kv t ih =>
    intro l₂ hs1 hs2 hn1 hn2 hl
    cases l₂ with
    | nil =>
      have := hl kv.1
      rw [lookupKV, lookupKV, if_pos rfl] at this
      simp at this
    | cons kv2 t2 =>
      have hk12 : kv.1 = kv2.1 := by
        have hm1 : kv.1 ∈ (kv2 :: t2).map Prod.fst := by
          have h1 := hl kv.1
          rw [lookupKV, if_pos rfl] at h1
          by_contra hnot
          rw [← lookupKV_none_iff] at hnot
          rw [hnot] at h1
          simp at h1
        have hm2 : kv2.1 ∈ (kv :: t).map Prod.fst := by
          have h2 := (hl kv2.1).symm
          rw [lookupKV, if_pos rfl] at h2
          by_contra hnot
          rw [← lookupKV_none_iff] at hnot
          rw [hnot] at h2
          simp at h2
        have hle1 : kv2.1 ≤ kv.1 := by
          rcases List.mem_map.mp hm1 with ⟨e, he, hek⟩
          rcases List.mem_cons.mp he with he | he
          · rw [← hek, he]
          · exact hek ▸ (List.pairwise_cons.mp hs2).1 e he
        have hle2 : kv.1 ≤ kv2.1 := by
          rcases List.mem_map.mp hm2 with ⟨e, he, hek⟩
          rcases List.mem_cons.mp he with he | he
          · rw [← hek, he]
          · exact hek ▸ (List.pairwise_cons.mp hs1).1 e he
        exact le_antisymm hle2 hle1
      have hv12 : kv.2 = kv2.2 := by
        have h1 := hl kv.1
        rw [lookupKV, if_pos rfl, lookupKV, if_pos hk12.symm] at h1
        exact Option.some.inj h1
      have hkv : kv = kv2 := Prod.ext hk12 hv12
      subst hkv
      rw [List.map_cons, List.nodup_cons] at hn1 hn2
      have htail : t = t2 := by
        apply ih t2 (List.pairwise_cons.mp hs1).2 (List.pairwise_cons.mp hs2).2
          hn1.2 hn2.2
        intro k
        by_cases hk : kv.1 = k
        · subst hk
          rw [(lookupKV_none_iff _ _).mpr hn1.1,
            (lookupKV_none_iff _ _).mpr hn2.1]
        · have := hl k
          rw [lookupKV, if_neg hk, lookupKV, if_neg hk] at this
          exact this
      rw [htail]

theorem structEqObj_iff (xs ys : List (String × KeyPart)) :
    structEqObj xs ys = true ↔
      ∀ kv ∈ xs, ∃ w, lookupKV kv.1 ys = some w ∧ structEq kv.2 w = true := by
  induction xs with
  | nil => simp [structEqObj]
  | cons kv t ih =>
    rw [structEqObj]
    rw [Bool.and_eq_true]
    constructor
    · rintro ⟨h1, h2⟩
      intro e he
      rcases List.mem_cons.mp he with he | he
      · subst he
        cases hl : lookupKV e.1 ys with
        | some w =>
          rw [show (match h : lookupKV e.1 ys with
              | some v => structEq e.2 v
              | none => false) = structEq e.2 w by
            rw [show lookupKV e.1 ys = some w from hl]] at h1
          exact ⟨w, rfl, h1⟩
        | none =>
          rw [show (match h : lookupKV e.1 ys with
              | some v => structEq e.2 v
              | none => false) = false by
            rw [show lookupKV e.1 ys = none from hl]] at h1
          simp at h1
      · exact ih.mp h2 e he
    · intro h
      refine ⟨?_, ih.mpr (fun e he => h e (List.mem_cons_of_mem _ he))⟩
      obtain ⟨w, hw, hse⟩ := h kv (List.mem_cons_self _ _)
      rw [show (match h : lookupKV kv.1 ys with
          | some v => structEq kv.2 v
          | none => false) = structEq kv.2 w by rw [hw]]
      exact hse

theorem wfKeyEntries_mem (kvs : List (String × KeyPart))
    (h : wfKeyEntries kvs = true) :
    ∀ kv ∈ kvs, wfKey kv.2 = true := by
  induction kvs with
  | nil => simp
  | cons kv t ih =>
    rw [wfKeyEntries, Bool.and_eq_true] at h
    intro e he
    rcases List.mem_cons.mp he with he | he
    · subst he; exact h.1
    · exact ih h.2 e he

theorem wfKeyList_mem (xs : List KeyPart) (h : wfKeyList xs = true) :
    ∀ x ∈ xs, wfKey x = true := by
  induction xs with
  | nil => simp
  | cons x t ih =>
    rw [wfKeyList, Bool.and_eq_true] at h
    intro e he
    rcases List.mem_cons.mp he with he | he
    · subst he; exact h.1
    · exact ih h.2 e he

theorem wfKey_obj_parts (kvs : List (String × KeyPart))
    (h : wfKey (.obj kvs) = true) :
    (kvs.map Prod.fst).Nodup ∧ wfKeyEntries kvs = true := by
  rw [wfKey, Bool.and_eq_true, decide_eq_true_eq] at h
  exact h

theorem wfKey_list_parts (xs : List KeyPart)
    (h : wfKey (.list xs) = true) : wfKeyList xs = true := by
  rw [wfKey] at h
  exact h

theorem canon_keys_nodup (l : List (String × KeyPart))
    (hn : (l.map Prod.fst).Nodup) :
    ((sortEntries (sortAllEntries l)).map Prod.fst).Nodup := by
  refine (((sortEntries_perm (sortAllEntries l)).map Prod.fst).nodup_iff).mpr ?_
  rw [sortAllEntries_keys]
  exact hn

theorem lookupKV_canon (l : List (String × KeyPart))
    (hn : (l.map Prod.fst).Nodup) (k : String) :
    lookupKV k (sortEntries (sortAllEntries l)) =
      (lookupKV k l).map sortAll := by
  have hn3 : ((sortEntries (sortAllEntries l)).map Prod.fst).Nodup :=
    canon_keys_nodup l hn
  rw [lookupKV_perm _ _ (sortEntries_perm _) hn3 k, lookupKV_sortAllEntries]

theorem structEq_sortAll_iff : ∀ n : Nat,
    (∀ a b, sizeOf a ≤ n → wfKey a = true → wfKey b = true →
      (structEq a b = true ↔ sortAll a = sortAll b)) ∧
    (∀ xs ys, sizeOf xs ≤ n → wfKeyList xs = true → wfKeyList ys = true →
      (structEqList xs ys = true ↔ sortAllList xs = sortAllList ys)) ∧
    (∀ kvs kvs2, sizeOf kvs ≤ n →
      (kvs.map Prod.fst).Nodup → (kvs2.map Prod.fst).Nodup →
      wfKeyEntries kvs = true → wfKeyEntries kvs2 = true →
      ((kvs.length = kvs2.length ∧ structEqObj kvs kvs2 = true) ↔
        sortEntries (sortAllEntries kvs) =
          sortEntries (sortAllEntries kvs2))) := by
  intro n
  induction n with
  | zero =>
    refine ⟨fun a _ hs _ _ => absurd hs (by have := kp_sizeOf_pos a; omega),
      fun xs _ hs _ _ => absurd hs (by have := list_sizeOf_pos xs; omega),
      fun kvs _ hs _ _ _ _ =>
        absurd hs (by have := list_sizeOf_pos kvs; omega)⟩
  | succ n ih =>
    obtain ⟨ihK, ihL, ihO⟩ := ih
    refine ⟨?_, ?_, ?_⟩
    · intro a b hs hwa hwb
      cases a with
      | text s => cases b <;> simp [structEq, sortAll]
      | num m => cases b <;> simp [structEq, sortAll]
      | list xs =>
        cases b with
        | text t => simp [structEq, sortAll]
        | num m => simp [structEq, sortAll]
        | obj kvs2 => simp [structEq, sortAll]
        | list ys =>
          have hx : sizeOf xs ≤ n := by simp at hs; omega
          rw [show structEq (.list xs) (.list ys) = structEqList xs ys by
            rw [structEq]]
          rw [show sortAll (.list xs) = .list (sortAllList xs) by rw [sortAll]]
          rw [show sortAll (.list ys) = .list (sortAllList ys) by rw [sortAll]]
          simp only [KeyPart.list.injEq]
          exact ihL xs ys hx (wfKey_list_parts xs hwa) (wfKey_list_parts ys hwb)
      | obj kvs =>
        cases b with
        | text t => simp [structEq, sortAll]
        | num m => simp [structEq, sortAll]
        | list ys => simp [structEq, sortAll]
        | obj kvs2 =>
          have hx : sizeOf kvs ≤ n := by simp at hs; omega
          obtain ⟨hn1, hw1⟩ := wfKey_obj_parts kvs hwa
          obtain ⟨hn2, hw2⟩ := wfKey_obj_parts kvs2 hwb
          rw [show structEq (.obj kvs) (.obj kvs2)
              = (decide (kvs.length = kvs2.length) && structEqObj kvs kvs2) by
            rw [structEq]]
          rw [show sortAll (.obj kvs)
              = .obj (sortEntries (sortAllEntries kvs)) by rw [sortAll]]
          rw [show sortAll (.obj kvs2)
              = .obj (sortEntries (sortAllEntries kvs2)) by rw [sortAll]]
          simp only [KeyPart.obj.injEq, Bool.and_eq_true, decide_eq_true_eq]
          exact ihO kvs kvs2 hx hn1 hn2 hw1 hw2
    · intro xs ys hs hwx hwy
      cases xs with
      | nil =>
        cases ys with
        | nil => simp [structEqList, sortAllList]
        | cons y t2 => simp [structEqList, sortAllList]
      | cons x t =>
        cases ys with
        | nil => simp [structEqList, sortAllList]
        | cons y t2 =>
          have h1 : sizeOf x ≤ n := by
            have := list_sizeOf_pos t
            simp at hs
            omega
          have h2 : sizeOf t ≤ n := by
            have := kp_sizeOf_pos x
            simp at hs
            omega
          rw [wfKeyList, Bool.and_eq_true] at hwx hwy
          rw [show structEqList (x :: t) (y :: t2)
              = (structEq x y && structEqList t t2) by rw [structEqList]]
          rw [show sortAllList (x :: t) = sortAll x :: sortAllList t by
            rw [sortAllList]]
          rw [show sortAllList (y :: t2) = sortAll y :: sortAllList t2 by
            rw [sortAllList]]
          simp only [Bool.and_eq_true, List.cons.injEq]
          rw [ihK x y h1 hwx.1 hwy.1, ihL t t2 h2 hwx.2 hwy.2]
    · intro kvs kvs2 hs hn1 hn2 hw1 hw2
      constructor
      · rintro ⟨hlen, hobj⟩
        apply sorted_lookup_ext _ _ (sortEntries_sorted _) (sortEntries_sorted _)
          (canon_keys_nodup kvs hn1) (canon_keys_nodup kvs2 hn2)
        intro k
        rw [lookupKV_canon kvs hn1 k, lookupKV_canon kvs2 hn2 k]
        cases hl : lookupKV k kvs with
        | some v =>
          have hmem := lookupKV_mem k kvs v hl
          obtain ⟨w, hw, hse⟩ := (structEqObj_iff kvs kvs2).mp hobj (k, v) hmem
          have hv : sizeOf v ≤ n := by
            have := lookupKV_sizeOf k kvs v hl
            omega
          have hwv : wfKey v = true := wfKeyEntries_mem kvs hw1 (k, v) hmem
          have hww : wfKey w = true :=
            wfKeyEntries_mem kvs2 hw2 (k, w) (lookupKV_mem k kvs2 w hw)
          rw [hw]
          simp only [Option.map_some']
          rw [(ihK v w hv hwv hww).mp hse]
        | none =>
          have hnone : lookupKV k kvs2 = none := by
            rw [lookupKV_none_iff]
            intro hk2
            have hsub : kvs.map Prod.fst ⊆ kvs2.map Prod.fst := by
              intro k0 hk0
              rcases List.mem_map.mp hk0 with ⟨e, he, hek⟩
              obtain ⟨w, hw, _⟩ := (structEqObj_iff kvs kvs2).mp hobj e he
              have hmem2 := lookupKV_mem e.1 kvs2 w hw
              have hin : (e.1, w).1 ∈ kvs2.map Prod.fst :=
                List.mem_map_of_mem Prod.fst hmem2
              rw [← hek]
              exact hin
            have hperm : List.Perm (kvs.map Prod.fst) (kvs2.map Prod.fst) := by
              apply List.Subperm.perm_of_length_le
                (List.subperm_of_subset hn1 hsub)
              simp [hlen]
            exact (lookupKV_none_iff k kvs).mp hl (hperm.mem_iff.mpr hk2)
          rw [hnone]
      · intro heq
        have hmapeq : ∀ k, (lookupKV k kvs).map sortAll
            = (lookupKV k kvs2).map sortAll := by
          intro k
          rw [← lookupKV_canon kvs hn1 k, ← lookupKV_canon kvs2 hn2 k, heq]
        constructor
        · have l1 : (sortEntries (sortAllEntries kvs)).length = kvs.length := by
            rw [(sortEntries_perm _).length_eq, sortAllEntries_length]
          have l2 : (sortEntries (sortAllEntries kvs2)).length
              = kvs2.length := by
            rw [(sortEntries_perm _).length_eq, sortAllEntries_length]
          rw [← l1, ← l2, heq]
        · rw [structEqObj_iff]
          intro kv hkv
          have hl : lookupKV kv.1 kvs = some kv.2 :=
            lookupKV_of_mem _ _ _ hn1 hkv
          have hm := hmapeq kv.1
          rw [hl] at hm
          cases hl2 : lookupKV kv.1 kvs2 with
          | none =>
            rw [hl2] at hm
            simp at hm
          | some w =>
            rw [hl2] at hm
            simp only [Option.map_some'] at hm
            have hsw : sortAll kv.2 = sortAll w := Option.some.inj hm
            have hv : sizeOf kv.2 ≤ n := by
              have := lookupKV_sizeOf kv.1 kvs kv.2 hl
              omega
            have hwv : wfKey kv.2 = true := wfKeyEntries_mem kvs hw1 kv hkv
            have hww : wfKey w = true :=
              wfKeyEntries_mem kvs2 hw2 (kv.1, w) (lookupKV_mem _ _ _ hl2)
            exact ⟨w, rfl, (ihK kv.2 w hv hwv hww).mpr hsw⟩

theorem hashKey_ser (a : KeyPart) (h : a.isText = false) :
    hashKey a = ⟨serK (sortAll a)⟩ := by
  cases a with
  | text s => simp [KeyPart.isText] at h
  | num n => rfl
  | list xs => rfl
  | obj kvs => rfl

theorem hashKey_eq_of_sortAll (a b : KeyPart)
    (ha : a.isText = false) (hb : b.isText = false)
    (hsa : sortAll a = sortAll b) : hashKey a = hashKey b := by
  rw [hashKey_ser a ha, hashKey_ser b hb, hsa]

theorem structEq_of_ser (a b : KeyPart)
    (ha : a.isText = false) (hb : b.isText = false)
    (hwa : wfKey a = true) (hwb : wfKey b = true)
    (h : hashKey a = hashKey b) : structEq a b = true := by
  rw [hashKey_ser a ha, hashKey_ser b hb] at h
  have hsa := serK_inj _ _ (congrArg String.data h)
  exact ((structEq_sortAll_iff (sizeOf a)).1 a b (le_refl _) hwa hwb).mpr hsa

theorem hashKey_eq_of_structEq (a b : KeyPart)
    (hwa : wfKey a = true) (hwb : wfKey b = true)
    (h : structEq a b = true) : hashKey a = hashKey b := by
  have hsa : sortAll a = sortAll b :=
    ((structEq_sortAll_iff (sizeOf a)).1 a b (le_refl _) hwa hwb).mp h
  cases a <;> cases b <;>
    first
      | (rename_i s t
         rw [show sortAll (KeyPart.text s) = KeyPart.text s by rw [sortAll],
           show sortAll (KeyPart.text t) = KeyPart.text t by rw [sortAll],
           KeyPart.text.injEq] at hsa
         rw [show hashKey (KeyPart.text s) = s from rfl,
           show hashKey (KeyPart.text t) = t from rfl, hsa])
      | exact hashKey_eq_of_sortAll _ _ rfl rfl hsa
      | exact absurd hsa (by simp [sortAll])

theorem structEq_of_hashKey_eq (a b : KeyPart)
    (ht : a.isText = b.isText)
    (hwa : wfKey a = true) (hwb : wfKey b = true)
    (h : hashKey a = hashKey b) : structEq a b = true := by
  cases a <;> cases b <;>
    first
      | (rename_i s t
         rw [show hashKey (KeyPart.text s) = s from rfl,
           show hashKey (KeyPart.text t) = t from rfl] at h
         rw [show structEq (KeyPart.text s) (KeyPart.text t)
             = decide (s = t) by rw [structEq]]
         simp [h])
      | exact structEq_of_ser _ _ rfl rfl hwa hwb h
      | exact absurd ht (by simp [KeyPart.isText])

/-! ## Association-list lemmas -/

theorem alookup_aset_self {β : Type} (k : String) (v : β)
    (l : List (String × β)) : alookup k (aset k v l) = some v := by
  induction l with
  | nil => simp [aset, alookup]
  | cons h t ih =>
    by_cases hk : h.1 = k
    · simp [aset, hk, alookup]
    · simp [aset, hk, alookup, ih]

theorem alookup_aset_ne {β : Type} (k k' : String) (v : β)
    (l : List (String × β)) (h : k' ≠ k) :
    alookup k (aset k' v l) = alookup k l := by
  induction l with
  | nil => simp [aset, alookup, h]
  | cons hd t ih =>
    by_cases hk : hd.1 = k'
    · simp [aset, hk, alookup, h]
    · by_cases hk2 : hd.1 = k
      · simp [aset, hk, hk2, alookup, Ne.symm h]
      · simp [aset, hk, hk2, alookup, ih]

theorem mem_keys_aset {β : Type} (x k : String) (v : β)
    (l : List (String × β)) :
    x ∈ (aset k v l).map Prod.fst ↔ x = k ∨ x ∈ l.map Prod.fst := by
  induction l with
  | nil => simp [aset]
  | cons hd t ih =>
    by_cases hk : hd.1 = k
    · simp [aset, hk]
    · simp [aset, hk, ih]
      tauto

theorem nodup_keys_aset {β : Type} (k : String) (v : β)
    (l : List (String × β)) (h : (l.map Prod.fst).Nodup) :
    ((aset k v l).map Prod.fst).Nodup := by
  induction l with
  | nil => simp [aset]
  | cons hd t ih =>
    obtain ⟨a, bv⟩ := hd
    simp only [List.map_cons, List.nodup_cons] at h
    by_cases hk : a = k
    · subst hk
      simp [aset]
      simpa using h
    · simp only [aset, if_neg hk, List.map_cons, List.nodup_cons]
      constructor
      · intro hmem
        rcases (mem_keys_aset a k v t).mp hmem with h1 | h1
        · exact hk h1
        · exact h.1 h1
      · exact ih h.2

theorem aerase_sublist {β : Type} (k : String) (l : List (String × β)) :
    (aerase k l).Sublist l := by
  induction l with
  | nil => simp [aerase]
  | cons hd t ih =>
    by_cases hk : hd.1 = k
    · simp [aerase, hk]
    · simp [aerase, hk]
      exact ih

theorem nodup_keys_aerase {β : Type} (k : String)
    (l : List (String × β)) (h : (l.map Prod.fst).Nodup) :
    ((aerase k l).map Prod.fst).Nodup :=
  ((aerase_sublist k l).map Prod.fst).nodup h

theorem alookup_eq_none_iff {β : Type} (k : String) (l : List (String × β)) :
    alookup k l = none ↔ k ∉ l.map Prod.fst := by
  induction l with
  | nil => simp [alookup]
  | cons hd t ih =>
    by_cases hk : hd.1 = k
    · simp [alookup, hk]
    · simp [alookup, hk, ih]
      intro h
      exact fun hc => hk hc.symm

theorem alookup_aerase_ne {β : Type} (k k' : String)
    (l : List (String × β)) (h : k' ≠ k) :
    alookup k' (aerase k l) = alookup k' l := by
  induction l with
  | nil => simp [aerase]
  | cons hd t ih =>
    by_cases hk : hd.1 = k
    · have hne : hd.1 ≠ k' := by rw [hk]; exact fun hc => h hc.symm
      simp [aerase, hk, alookup, hne, Ne.symm h]
    · by_cases hk2 : hd.1 = k'
      · simp [aerase, hk, alookup, hk2, h]
      · simp [aerase, hk, alookup, hk2, ih]

theorem alookup_aerase_self {β : Type} (k : String) (l : List (String × β))
    (h : (l.map Prod.fst).Nodup) : alookup k (aerase k l) = none := by
  induction l with
  | nil => simp [aerase, alookup]
  | cons hd t ih =>
    simp only [List.map_cons, List.nodup_cons] at h
    by_cases hk : hd.1 = k
    · simp only [aerase, if_pos hk]
      rw [alookup_eq_none_iff]
      rw [← hk]
      exact h.1
    · simp [aerase, hk, alookup, ih h.2]

theorem alookup_aset_isSome {β : Type} (c k : String) (v : β)
    (l : List (String × β)) :
    (alookup c (aset k v l)).isSome ↔ c = k ∨ (alookup c l).isSome := by
  by_cases hk : c = k
  · subst hk
    simp [alookup_aset_self]
  · rw [alookup_aset_ne c k v l (fun h => hk h.symm)]
    simp [hk]

theorem alookup_registerKey_ne (c b b' : String)
    (reg : List (String × List String)) (h : b' ≠ b) :
    alookup b' (registerKey c b reg) = alookup b' reg := by
  cases hr : alookup b reg <;>
    simp [registerKey, hr, alookup_aset_ne b' b _ reg (fun hc => h hc.symm)]

/-- The family of `b` after registering `c` under it: it contains `c`, is
nonempty, extends the previous family, adds nothing but `c`, and keeps
the family duplicate-free. -/
theorem alookup_registerKey_self (c b : String)
    (reg : List (String × List String)) :
    ∃ fam, alookup b (registerKey c b reg) = some fam ∧ c ∈ fam ∧
      fam ≠ [] ∧
      (∀ x ∈ fam, x = c ∨ ∃ fam0, alookup b reg = some fam0 ∧ x ∈ fam0) ∧
      ((∀ fam0, alookup b reg = some fam0 → fam0.Nodup) → fam.Nodup) ∧
      (∀ fam0, alookup b reg = some fam0 → ∀ x ∈ fam0, x ∈ fam) := by
  cases hr : alookup b reg with
  | none =>
    refine ⟨["" ++ c], ?_, ?_, ?_, ?_, ?_, ?_⟩ <;>
      simp [registerKey, hr, alookup_aset_self]
  | some fam0 =>
    by_cases hm : c ∈ fam0
    · refine ⟨fam0, ?_, hm, ?_, ?_, ?_, ?_⟩
      · simp [registerKey, hr, hm, alookup_aset_self]
      · intro hc
        rw [hc] at hm
        exact absurd hm (by simp)
      · intro x hx
        exact Or.inr ⟨fam0, rfl, hx⟩
      · intro hnd
        exact hnd fam0 rfl
      · intro fam1 hf x hx
        rw [Option.some.inj hf]
        exact hx
    · refine ⟨fam0 ++ [c], ?_, ?_, ?_, ?_, ?_, ?_⟩
      · simp [registerKey, hr, hm, alookup_aset_self]
      · simp
      · simp
      · intro x hx
        rcases List.mem_append.mp hx with hx | hx
        · exact Or.inr ⟨fam0, rfl, hx⟩
        · left
          simpa using hx
      · intro hnd
        simp [List.nodup_append, hm, hnd fam0 rfl]
      · intro fam1 hf x hx
        rw [← Option.some.inj hf] at hx
        exact List.mem_append.mpr (Or.inl hx)

theorem alookup_unregisterKey_ne (c b b' : String)
    (reg : List (String × List String)) (h : b' ≠ b) :
    alookup b' (unregisterKey c b reg) = alookup b' reg := by
  cases hr : alookup b reg with
  | none => simp [unregisterKey, hr]
  | some fam =>
    by_cases he : fam.erase c = []
    · simp [unregisterKey, hr, he, alookup_aerase_ne b b' reg h]
    · simp [unregisterKey, hr, he,
        alookup_aset_ne b' b _ reg (fun hc => h hc.symm)]

theorem alookup_unregisterKey_self (c b : String)
    (reg : List (String × List String))
    (hnd : (reg.map Prod.fst).Nodup) :
    alookup b (unregisterKey c b reg) =
      (match alookup b reg with
       | none => none
       | some fam =>
         if fam.erase c = [] then none else some (fam.erase c)) := by
  cases hr : alookup b reg with
  | none => simp [unregisterKey, hr]
  | some fam =>
    by_cases he : fam.erase c = []
    · simp [unregisterKey, hr, he, alookup_aerase_self b reg hnd]
    · simp [unregisterKey, hr, he, alookup_aset_self]

theorem nodup_keys_registerKey (c b : String)
    (reg : List (String × List String)) (h : (reg.map Prod.fst).Nodup) :
    ((registerKey c b reg).map Prod.fst).Nodup := by
  cases hr : alookup b reg <;> simp [registerKey, hr] <;>
    [exact nodup_keys_aset b _ reg h; exact nodup_keys_aset b _ reg h]

theorem nodup_keys_unregisterKey (c b : String)
    (reg : List (String × List String)) (h : (reg.map Prod.fst).Nodup) :
    ((unregisterKey c b reg).map Prod.fst).Nodup := by
  cases hr : alookup b reg with
  | none => simpa [unregisterKey, hr] using h
  | some fam =>
    by_cases he : fam.erase c = []
    · simp only [unregisterKey, hr, he, if_pos]
      exact nodup_keys_aerase b reg h
    · simp only [unregisterKey, hr, he, if_neg, ite_false]
      exact nodup_keys_aset b _ reg h

/-! ## Lemmas about get and fetchStart -/

/-- `get` on a resident key: the entry map is untouched (only the registry
may change) and the resident entry is returned. -/
theorem get_of_mem {α ε : Type} (s : CacheState α ε) (k : String)
    (b : Option String) (e : Entry α ε) (hl : alookup k s.cache = some e) :
    (s.get k b).1.cache = s.cache ∧ (s.get k b).2 = e ∧
    (s.get k b).1.nextPromiseId = s.nextPromiseId ∧
    (s.get k b).1.armedTimers = s.armedTimers ∧
    (s.get k b).1.outcomes = s.outcomes := by
  cases b <;> simp [CacheState.get, hl]

/-- `get` on an absent key: a fresh Idle entry is created and returned. -/
theorem get_of_absent {α ε : Type} (s : CacheState α ε) (k : String)
    (b : Option String) (hl : alookup k s.cache = none) :
    (s.get k b).1.cache = aset k Entry.empty s.cache ∧
    (s.get k b).2 = Entry.empty ∧
    (s.get k b).1.nextPromiseId = s.nextPromiseId ∧
    (s.get k b).1.armedTimers = s.armedTimers := by
  cases b <;> simp [CacheState.get, hl, alookup_aset_self]

/-- Dedup step: a `fetch` on a key with an in-flight promise returns that
promise, leaves the entry map untouched, runs no producer and notifies
no-one. -/
theorem fetchStart_deduped {α ε : Type} (s : CacheState α ε) (k : String)
    (b : Option String) (e : Entry α ε) (p : Nat)
    (hl : alookup k s.cache = some e) (hp : e.promise = some p) :
    (s.fetchStart k b).2.1 = .deduped p ∧
    (s.fetchStart k b).1.cache = s.cache ∧
    (s.fetchStart k b).2.2 = [] ∧
    (s.fetchStart k b).1.nextPromiseId = s.nextPromiseId := by
  obtain ⟨hc, he, hn, -, -⟩ := get_of_mem s k b e hl
  simp [CacheState.fetchStart, he, hp, hc, hn]

/-- Start step: a `fetch` on a key with no in-flight promise starts the
producer under the fresh promise id, records it on the entry, and bumps
the promise counter. -/
theorem fetchStart_started {α ε : Type} (s : CacheState α ε) (k : String)
    (b : Option String) (hfree : inflight s k = none) :
    (s.fetchStart k b).2.1 = .started s.nextPromiseId ∧
    (∃ e', alookup k (s.fetchStart k b).1.cache = some e' ∧
      e'.promise = some s.nextPromiseId) := by
  unfold inflight at hfree
  cases hl : alookup k s.cache with
  | none =>
    obtain ⟨hc, he, hn, -⟩ := get_of_absent s k b hl
    refine ⟨?_, ?_⟩ <;>
      simp [CacheState.fetchStart, he, hc, hn, Entry.empty, alookup_aset_self]
  | some e =>
    rw [hl] at hfree
    simp only [Option.bind] at hfree
    obtain ⟨hc, he, hn, -, -⟩ := get_of_mem s k b e hl
    refine ⟨?_, ?_⟩ <;>
      simp [CacheState.fetchStart, he, hfree, hc, hn, alookup_aset_self]

/-- Every `fetch` call of a burst issued while a promise is in flight is
deduplicated onto that promise and leaves the entry map untouched. -/
theorem runFetches_deduped {α ε : Type} (k : String) (p : Nat) :
    ∀ (bs : List (Option String)) (s : CacheState α ε) (e : Entry α ε),
    alookup k s.cache = some e → e.promise = some p →
    (runFetches k s bs).2 = bs.map (fun _ => .deduped p) ∧
    (runFetches k s bs).1.cache = s.cache := by
  intro bs
  induction bs with
  | nil => intro s e _ _; simp [runFetches]
  | cons b bs ih =>
    intro s e hl hp
    obtain ⟨ho, hc, -, -⟩ := fetchStart_deduped s k b e p hl hp
    have hl' : alookup k (s.fetchStart k b).1.cache = some e := by
      rw [hc]; exact hl
    obtain ⟨h1, h2⟩ := ih (s.fetchStart k b).1 e hl' hp
    simp [runFetches, ho, h1, h2, hc]

/-- Settling a key whose entry carries in-flight promise `p` records the
result as the outcome of `p`. -/
theorem settle_outcome {α ε : Type} (s : CacheState α ε) (k : String)
    (res : Except ε α) (now : Nat) (e : Entry α ε) (p : Nat)
    (hl : alookup k s.cache = some e) (hp : e.promise = some p) :
    outcomeOf (s.settle k res now).1 p = some res := by
  cases res <;> simp [CacheState.settle, hl, hp, outcomeOf, List.find?]

/-! ## Preservation of the subscriber/eviction invariant -/

theorem aset_aset {β : Type} (k : String) (v1 v2 : β)
    (l : List (String × β)) : aset k v2 (aset k v1 l) = aset k v2 l := by
  induction l with
  | nil => simp [aset]
  | cons hd t ih =>
    by_cases hk : hd.1 = k
    · simp [aset, hk]
    · simp [aset, hk, ih]

/-- `GCInv` only looks at the entry map and the armed timers. -/
theorem gcinv_of_eq {α ε : Type} (s s' : CacheState α ε)
    (hc : s'.cache = s.cache) (ha : s'.armedTimers = s.armedTimers)
    (h : GCInv s) : GCInv s' := by
  obtain ⟨h1, h2, h3⟩ := h
  refine ⟨by rw [hc]; exact h1, ?_, ?_⟩
  · intro k e hl hs
    rw [hc] at hl
    exact h2 k e hl hs
  · intro t k b hmem
    rw [ha] at hmem
    obtain ⟨e, hl, hgc⟩ := h3 t k b hmem
    exact ⟨e, by rw [hc]; exact hl, hgc⟩

/-- Updating a resident entry without touching its subscribers or timer
handle, with the armed timers unchanged, preserves `GCInv`. -/
theorem gcinv_aset_same {α ε : Type} (s s' : CacheState α ε) (k : String)
    (e e' : Entry α ε) (hl : alookup k s.cache = some e)
    (hc : s'.cache = aset k e' s.cache)
    (ha : s'.armedTimers = s.armedTimers)
    (hsub : e'.subscribers = e.subscribers)
    (hgc : e'.gcTimeout = e.gcTimeout)
    (h : GCInv s) : GCInv s' := by
  obtain ⟨h1, h2, h3⟩ := h
  refine ⟨by rw [hc]; exact nodup_keys_aset k e' s.cache h1, ?_, ?_⟩
  · intro k2 e2 hl2 hs2
    rw [hc] at hl2
    by_cases hk : k2 = k
    · subst hk
      rw [alookup_aset_self] at hl2
      have he2 : e2 = e' := (Option.some.inj hl2).symm
      subst he2
      rw [hgc]
      apply h2 k2 e hl
      rw [← hsub]
      exact hs2
    · rw [alookup_aset_ne k2 k e' s.cache (fun hc2 => hk hc2.symm)] at hl2
      exact h2 k2 e2 hl2 hs2
  · intro t k2 b hmem
    rw [ha] at hmem
    obtain ⟨e2, hl2, hgc2⟩ := h3 t k2 b hmem
    by_cases hk : k2 = k
    · subst hk
      rw [hl] at hl2
      have he2 : e2 = e := (Option.some.inj hl2).symm
      subst he2
      refine ⟨e', ?_, ?_⟩
      · rw [hc]; exact alookup_aset_self k2 e' s.cache
      · rw [hgc]; exact hgc2
    · refine ⟨e2, ?_, hgc2⟩
      rw [hc]
      rw [alookup_aset_ne k2 k e' s.cache (fun hc2 => hk hc2.symm)]
      exact hl2

/-- Inserting a fresh entry without subscribers and without a timer handle
at an absent key, with the armed timers unchanged, preserves `GCInv`. -/
theorem gcinv_aset_fresh {α ε : Type} (s s' : CacheState α ε) (k : String)
    (e' : Entry α ε) (hl : alookup k s.cache = none)
    (hc : s'.cache = aset k e' s.cache)
    (ha : s'.armedTimers = s.armedTimers)
    (hsub : e'.subscribers = []) (hgc : e'.gcTimeout = none)
    (h : GCInv s) : GCInv s' := by
  obtain ⟨h1, h2, h3⟩ := h
  refine ⟨by rw [hc]; exact nodup_keys_aset k e' s.cache h1, ?_, ?_⟩
  · intro k2 e2 hl2 hs2
    rw [hc] at hl2
    by_cases hk : k2 = k
    · subst hk
      rw [alookup_aset_self] at hl2
      have he2 : e2 = e' := (Option.some.inj hl2).symm
      subst he2
      exact absurd hsub hs2
    · rw [alookup_aset_ne k2 k e' s.cache (fun hc2 => hk hc2.symm)] at hl2
      exact h2 k2 e2 hl2 hs2
  · intro t k2 b hmem
    rw [ha] at hmem
    obtain ⟨e2, hl2, hgc2⟩ := h3 t k2 b hmem
    by_cases hk : k2 = k
    · subst hk
      rw [hl] at hl2
      exact absurd hl2 (by simp)
    · refine ⟨e2, ?_, hgc2⟩
      rw [hc]
      rw [alookup_aset_ne k2 k e' s.cache (fun hc2 => hk hc2.symm)]
      exact hl2

theorem gcinv_get {α ε : Type} (s : CacheState α ε) (k : String)
    (b : Option String) (h : GCInv s) : GCInv (s.get k b).1 := by
  cases hl : alookup k s.cache with
  | some e =>
    obtain ⟨hc, -, -, ha, -⟩ := get_of_mem s k b e hl
    exact gcinv_of_eq s _ hc ha h
  | none =>
    obtain ⟨hc, -, -, ha⟩ := get_of_absent s k b hl
    exact gcinv_aset_fresh s _ k Entry.empty hl hc ha rfl rfl h

theorem gcinv_fetchStart {α ε : Type} (s : CacheState α ε) (k : String)
    (b : Option String) (h : GCInv s) : GCInv (s.fetchStart k b).1 := by
  cases hl : alookup k s.cache with
  | some e =>
    obtain ⟨hc, he, -, ha, -⟩ := get_of_mem s k b e hl
    cases hp : e.promise with
    | some p =>
      obtain ⟨-, hc2, -, -⟩ := fetchStart_deduped s k b e p hl hp
      apply gcinv_of_eq s _ hc2
      · simp [CacheState.fetchStart, he, hp, ha]
      · exact h
    | none =>
      apply gcinv_aset_same s _ k e
        ({ (if e.status = QueryStatus.idle then { e with status := .loading } else e) with
           promise := some (s.get k b).1.nextPromiseId }) hl
      · simp only [CacheState.fetchStart, he, hp]
        rw [hc, aset_aset]
      · simp only [CacheState.fetchStart, he, hp]
        exact ha
      · by_cases hst : e.status = QueryStatus.idle <;> simp [hst]
      · by_cases hst : e.status = QueryStatus.idle <;> simp [hst]
      · exact h
  | none =>
    obtain ⟨hc, he, -, ha⟩ := get_of_absent s k b hl
    apply gcinv_aset_fresh s _ k
      ({ data := none, error := none, status := .loading, fetchedAt := 0,
         promise := some (s.get k b).1.nextPromiseId, subscribers := [],
         gcTimeout := none }) hl
    · simp [CacheState.fetchStart, he, hc, Entry.empty, aset_aset]
    · simp only [CacheState.fetchStart, he, Entry.empty]
      exact ha
    · rfl
    · rfl
    · exact h

theorem gcinv_settle {α ε : Type} (s : CacheState α ε) (k : String)
    (res : Except ε α) (now : Nat) (h : GCInv s) :
    GCInv (s.settle k res now).1 := by
  cases hl : alookup k s.cache with
  | none => simpa [CacheState.settle, hl] using h
  | some e =>
    cases res with
    | ok v =>
      apply gcinv_aset_same s _ k e
        ({ e with
           data := some v, error := none, status := .success,
           fetchedAt := now, promise := none }) hl
      · simp [CacheState.settle, hl]
      · simp [CacheState.settle, hl]
      · rfl
      · rfl
      · exact h
    | error err =>
      apply gcinv_aset_same s _ k e
        ({ e with
           error := some err,
           status := if e.data.isNone then .error else e.status,
           promise := none }) hl
      · simp [CacheState.settle, hl]
      · simp [CacheState.settle, hl]
      · rfl
      · rfl
      · exact h

theorem gcinv_invalidate {α ε : Type} (s : CacheState α ε) (k : String)
    (h : GCInv s) : GCInv (s.invalidate k).1 := by
  cases hl : alookup k s.cache with
  | none => simpa [CacheState.invalidate, hl] using h
  | some e =>
    apply gcinv_aset_same s _ k e ({ e with fetchedAt := 0 }) hl
    · simp [CacheState.invalidate, hl]
    · simp [CacheState.invalidate, hl]
    · rfl
    · rfl
    · exact h

theorem gcinv_foldl {α ε : Type} (f : CacheState α ε → String → CacheState α ε)
    (hf : ∀ s x, GCInv s → GCInv (f s x)) :
    ∀ (l : List String) (s : CacheState α ε), GCInv s → GCInv (l.foldl f s) := by
  intro l
  induction l with
  | nil => intro s h; exact h
  | cons x t ih => intro s h; exact ih _ (hf s x h)

theorem gcinv_invalidateByKey {α ε : Type} (s : CacheState α ε) (b : String)
    (h : GCInv s) : GCInv (s.invalidateByKey b) := by
  cases hr : alookup b s.keyRegistry with
  | none => simpa [CacheState.invalidateByKey, hr] using h
  | some fam =>
    simp only [CacheState.invalidateByKey, hr]
    exact gcinv_foldl _ (fun s' x h' => gcinv_invalidate s' x h') fam s h

theorem gcinv_invalidateAll {α ε : Type} (s : CacheState α ε)
    (h : GCInv s) : GCInv s.invalidateAll :=
  gcinv_foldl _ (fun s' x h' => gcinv_invalidate s' x h') _ s h

theorem gcinv_remove {α ε : Type} (s : CacheState α ε) (k : String)
    (b : Option String) (h : GCInv s) : GCInv (s.remove k b) := by
  cases hl : alookup k s.cache with
  | none =>
    refine gcinv_of_eq s _ ?_ ?_ h <;> cases b <;> simp [CacheState.remove, hl]
  | some e =>
    obtain ⟨h1, h2, h3⟩ := h
    have hcache : (s.remove k b).cache = aerase k s.cache := by
      cases b <;> cases hgc : e.gcTimeout <;>
        simp [CacheState.remove, hl, clearTimer, hgc]
    have harmed : (s.remove k b).armedTimers =
        (match e.gcTimeout with
         | some tid => s.armedTimers.filter (fun a => a.1 ≠ tid)
         | none => s.armedTimers) := by
      cases b <;> cases hgc : e.gcTimeout <;>
        simp [CacheState.remove, hl, clearTimer, hgc]
    refine ⟨?_, ?_, ?_⟩
    · rw [hcache]
      exact nodup_keys_aerase k s.cache h1
    · intro k2 e2 hl2 hs2
      rw [hcache] at hl2
      by_cases hk : k2 = k
      · subst hk
        rw [alookup_aerase_self k2 s.cache h1] at hl2
        exact absurd hl2 (by simp)
      · rw [alookup_aerase_ne k k2 s.cache hk] at hl2
        exact h2 k2 e2 hl2 hs2
    · intro t k2 b2 hmem
      rw [harmed] at hmem
      cases hgc : e.gcTimeout with
      | none =>
        rw [hgc] at hmem
        obtain ⟨e2, hl2, hgc2⟩ := h3 t k2 b2 hmem
        by_cases hk : k2 = k
        · subst hk
          rw [hl] at hl2
          have he2 : e2 = e := (Option.some.inj hl2).symm
          subst he2
          rw [hgc] at hgc2
          exact absurd hgc2 (by simp)
        · refine ⟨e2, ?_, hgc2⟩
          rw [hcache, alookup_aerase_ne k k2 s.cache hk]
          exact hl2
      | some tid =>
        rw [hgc] at hmem
        simp only [List.mem_filter, decide_eq_true_eq] at hmem
        obtain ⟨hmem', hne⟩ := hmem
        obtain ⟨e2, hl2, hgc2⟩ := h3 t k2 b2 hmem'
        by_cases hk : k2 = k
        · subst hk
          rw [hl] at hl2
          have he2 : e2 = e := (Option.some.inj hl2).symm
          subst he2
          rw [hgc] at hgc2
          exact absurd (Option.some.inj hgc2).symm hne
        · refine ⟨e2, ?_, hgc2⟩
          rw [hcache, alookup_aerase_ne k k2 s.cache hk]
          exact hl2

theorem gcinv_removeByKey {α ε : Type} (s : CacheState α ε) (b : String)
    (h : GCInv s) : GCInv (s.removeByKey b) := by
  cases hr : alookup b s.keyRegistry with
  | none => simpa [CacheState.removeByKey, hr] using h
  | some fam =>
    simp only [CacheState.removeByKey, hr]
    exact gcinv_foldl _ (fun s' x h' => gcinv_remove s' x (some b) h') fam s h

theorem gcinv_subscribe {α ε : Type} (s : CacheState α ε) (k : String)
    (cb : Nat) (b : Option String) (h : GCInv s) :
    GCInv (s.subscribe k cb b) := by
  obtain ⟨h1, h2, h3⟩ := h
  cases hl : alookup k s.cache with
  | none =>
    obtain ⟨hc, he, -, ha⟩ := get_of_absent s k b hl
    have hcache : (s.subscribe k cb b).cache =
        aset k ({ data := none, error := none, status := .idle, fetchedAt := 0,
                  promise := none, subscribers := [cb],
                  gcTimeout := none }) s.cache := by
      simp [CacheState.subscribe, he, hc, Entry.empty, aset_aset]
    have harmed : (s.subscribe k cb b).armedTimers = s.armedTimers := by
      simp [CacheState.subscribe, he, Entry.empty, ha]
    refine ⟨?_, ?_, ?_⟩
    · rw [hcache]
      exact nodup_keys_aset k _ s.cache h1
    · intro k2 e2 hl2 hs2
      rw [hcache] at hl2
      by_cases hk : k2 = k
      · subst hk
        rw [alookup_aset_self] at hl2
        rw [← (Option.some.inj hl2)]
      · rw [alookup_aset_ne k2 k _ s.cache (fun hc2 => hk hc2.symm)] at hl2
        exact h2 k2 e2 hl2 hs2
    · intro t k2 b2 hmem
      rw [harmed] at hmem
      obtain ⟨e2, hl2, hgc2⟩ := h3 t k2 b2 hmem
      by_cases hk : k2 = k
      · subst hk
        rw [hl] at hl2
        exact absurd hl2 (by simp)
      · refine ⟨e2, ?_, hgc2⟩
        rw [hcache, alookup_aset_ne k2 k _ s.cache (fun hc2 => hk hc2.symm)]
        exact hl2
  | some e =>
    obtain ⟨hc, he, -, ha, -⟩ := get_of_mem s k b e hl
    have hcache : (s.subscribe k cb b).cache =
        aset k ({ e with
                  gcTimeout := none,
                  subscribers := if cb ∈ e.subscribers then e.subscribers
                                 else e.subscribers ++ [cb] }) s.cache := by
      cases hgc : e.gcTimeout <;>
        simp [CacheState.subscribe, he, hc, clearTimer, hgc]
    have harmed : ∀ x, x ∈ (s.subscribe k cb b).armedTimers →
        x ∈ s.armedTimers ∧ ∀ tid, e.gcTimeout = some tid → x.1 ≠ tid := by
      intro x hx
      cases hgc : e.gcTimeout with
      | none =>
        simp only [CacheState.subscribe, he, hgc, ha] at hx
        exact ⟨hx, fun tid htid => absurd htid (by simp [hgc])⟩
      | some tid0 =>
        simp only [CacheState.subscribe, he, hgc, clearTimer, ha,
          List.mem_filter, decide_eq_true_eq] at hx
        refine ⟨hx.1, fun tid htid => ?_⟩
        rw [← Option.some.inj htid]
        exact hx.2
    refine ⟨?_, ?_, ?_⟩
    · rw [hcache]
      exact nodup_keys_aset k _ s.cache h1
    · intro k2 e2 hl2 hs2
      rw [hcache] at hl2
      by_cases hk : k2 = k
      · subst hk
        rw [alookup_aset_self] at hl2
        rw [← (Option.some.inj hl2)]
      · rw [alookup_aset_ne k2 k _ s.cache (fun hc2 => hk hc2.symm)] at hl2
        exact h2 k2 e2 hl2 hs2
    · intro t k2 b2 hmem
      obtain ⟨hmem', hne⟩ := harmed _ hmem
      obtain ⟨e2, hl2, hgc2⟩ := h3 t k2 b2 hmem'
      by_cases hk : k2 = k
      · subst hk
        rw [hl] at hl2
        have he2 : e2 = e := (Option.some.inj hl2).symm
        subst he2
        exact absurd rfl (hne t hgc2)
      · refine ⟨e2, ?_, hgc2⟩
        rw [hcache, alookup_aset_ne k2 k _ s.cache (fun hc2 => hk hc2.symm)]
        exact hl2

theorem gcinv_unsubscribe {α ε : Type} (s : CacheState α ε) (k : String)
    (cb : Nat) (h : GCInv s) : GCInv (s.unsubscribe k cb) := by
  cases hl : alookup k s.cache with
  | none => simpa [CacheState.unsubscribe, hl] using h
  | some e =>
    obtain ⟨h1, h2, h3⟩ := h
    have hcache : (s.unsubscribe k cb).cache =
        aset k ({ e with subscribers := e.subscribers.erase cb }) s.cache := by
      simp [CacheState.unsubscribe, hl]
    have harmed : (s.unsubscribe k cb).armedTimers = s.armedTimers := by
      simp [CacheState.unsubscribe, hl]
    refine ⟨?_, ?_, ?_⟩
    · rw [hcache]
      exact nodup_keys_aset k _ s.cache h1
    · intro k2 e2 hl2 hs2
      rw [hcache] at hl2
      by_cases hk : k2 = k
      · subst hk
        rw [alookup_aset_self] at hl2
        have he2 : e2 = { e with subscribers := e.subscribers.erase cb } :=
          (Option.some.inj hl2).symm
        subst he2
        apply h2 k2 e hl
        intro hnil
        apply hs2
        simp [hnil]
      · rw [alookup_aset_ne k2 k _ s.cache (fun hc2 => hk hc2.symm)] at hl2
        exact h2 k2 e2 hl2 hs2
    · intro t k2 b2 hmem
      rw [harmed] at hmem
      obtain ⟨e2, hl2, hgc2⟩ := h3 t k2 b2 hmem
      by_cases hk : k2 = k
      · subst hk
        rw [hl] at hl2
        have he2 : e2 = e := (Option.some.inj hl2).symm
        refine ⟨{ e with subscribers := e.subscribers.erase cb }, ?_, he2 ▸ hgc2⟩
        rw [hcache]
        exact alookup_aset_self k2 _ s.cache
      · refine ⟨e2, ?_, hgc2⟩
        rw [hcache, alookup_aset_ne k2 k _ s.cache (fun hc2 => hk hc2.symm)]
        exact hl2

theorem gcinv_scheduleGC {α ε : Type} (s : CacheState α ε) (k : String)
    (ct : Option Nat) (b : Option String) (h : GCInv s) :
    GCInv (s.scheduleGC k ct b) := by
  cases hl : alookup k s.cache with
  | none => simpa [CacheState.scheduleGC, hl] using h
  | some e =>
    by_cases hs : e.subscribers = []
    case neg => simpa [CacheState.scheduleGC, hl, hs] using h
    case pos =>
      obtain ⟨h1, h2, h3⟩ := h
      cases ct with
      | none =>
        have hcache : (s.scheduleGC k none b).cache = s.cache := by
          cases hgc : e.gcTimeout <;>
            simp [CacheState.scheduleGC, hl, hs, clearTimer, hgc]
        have harmed : ∀ x, x ∈ (s.scheduleGC k none b).armedTimers →
            x ∈ s.armedTimers := by
          intro x hx
          cases hgc : e.gcTimeout with
          | none =>
            simpa [CacheState.scheduleGC, hl, hs, clearTimer, hgc] using hx
          | some tid =>
            simp [CacheState.scheduleGC, hl, hs, clearTimer, hgc,
              List.mem_filter] at hx
            exact hx.1
        refine ⟨by rw [hcache]; exact h1, ?_, ?_⟩
        · intro k2 e2 hl2 hs2
          rw [hcache] at hl2
          exact h2 k2 e2 hl2 hs2
        · intro t k2 b2 hmem
          obtain ⟨e2, hl2, hgc2⟩ := h3 t k2 b2 (harmed _ hmem)
          exact ⟨e2, by rw [hcache]; exact hl2, hgc2⟩
      | some ctv =>
        have hcache : (s.scheduleGC k (some ctv) b).cache =
            aset k ({ e with gcTimeout := some s.nextTimerId }) s.cache := by
          cases hgc : e.gcTimeout <;>
            simp [CacheState.scheduleGC, hl, hs, clearTimer, hgc]
        have harmed : ∀ x, x ∈ (s.scheduleGC k (some ctv) b).armedTimers →
            x = (s.nextTimerId, k, b) ∨
            (x ∈ s.armedTimers ∧ ∀ t0, e.gcTimeout = some t0 → x.1 ≠ t0) := by
          intro x hx
          cases hgc : e.gcTimeout with
          | none =>
            simp [CacheState.scheduleGC, hl, hs, clearTimer, hgc] at hx
            rcases hx with hx | hx
            · right
              exact ⟨hx, fun t0 ht0 => by simp [hgc] at ht0⟩
            · left
              simp [hx]
          | some t0 =>
            simp [CacheState.scheduleGC, hl, hs, clearTimer, hgc,
              List.mem_filter] at hx
            rcases hx with hx | hx
            · right
              refine ⟨hx.1, fun t1 ht1 => ?_⟩
              rw [← Option.some.inj ht1]
              exact hx.2
            · left
              simp [hx]
        refine ⟨?_, ?_, ?_⟩
        · rw [hcache]
          exact nodup_keys_aset k _ s.cache h1
        · intro k2 e2 hl2 hs2
          rw [hcache] at hl2
          by_cases hk : k2 = k
          · subst hk
            rw [alookup_aset_self] at hl2
            have he2 : e2 = { e with gcTimeout := some s.nextTimerId } :=
              (Option.some.inj hl2).symm
            subst he2
            exact absurd hs (by simpa using hs2)
          · rw [alookup_aset_ne k2 k _ s.cache (fun hc2 => hk hc2.symm)] at hl2
            exact h2 k2 e2 hl2 hs2
        · intro t k2 b2 hmem
          rcases harmed _ hmem with hx | ⟨hx, hne⟩
          · simp only [Prod.mk.injEq] at hx
            obtain ⟨ht, hk2, hb2⟩ := hx
            subst ht; subst hk2
            refine ⟨{ e with gcTimeout := some s.nextTimerId }, ?_, rfl⟩
            rw [hcache]
            exact alookup_aset_self _ _ s.cache
          · obtain ⟨e2, hl2, hgc2⟩ := h3 t k2 b2 hx
            by_cases hk : k2 = k
            · subst hk
              rw [hl] at hl2
              have he2 : e2 = e := (Option.some.inj hl2).symm
              subst he2
              exact absurd rfl (hne t hgc2)
            · refine ⟨e2, ?_, hgc2⟩
              rw [hcache, alookup_aset_ne k2 k _ s.cache (fun hc2 => hk hc2.symm)]
              exact hl2

theorem gcinv_fireGC {α ε : Type} (s : CacheState α ε) (tid : Nat)
    (h : GCInv s) : GCInv (s.fireGC tid) := by
  obtain ⟨h1, h2, h3⟩ := h
  cases hf : s.armedTimers.find? (fun a => a.1 = tid) with
  | none => simpa [CacheState.fireGC, hf] using ⟨h1, h2, h3⟩
  | some x =>
    obtain ⟨t0, key, bx⟩ := x
    have hx : (t0, key, bx) ∈ s.armedTimers := List.mem_of_find?_eq_some hf
    have ht0 : t0 = tid := by
      have hp := List.find?_some hf
      simpa using hp
    subst ht0
    obtain ⟨eK, hlK, hgcK⟩ := h3 t0 key bx hx
    cases hsubs : eK.subscribers with
    | cons c cs =>
      have hcache : (s.fireGC t0).cache = s.cache := by
        simp [CacheState.fireGC, hf, hlK, hsubs]
      have harmed : ∀ y, y ∈ (s.fireGC t0).armedTimers →
          y ∈ s.armedTimers := by
        intro y hy
        simp [CacheState.fireGC, hf, hlK, hsubs, List.mem_filter] at hy
        exact hy.1
      refine ⟨by rw [hcache]; exact h1, ?_, ?_⟩
      · intro k2 e2 hl2 hs2
        rw [hcache] at hl2
        exact h2 k2 e2 hl2 hs2
      · intro t k2 b2 hmem
        obtain ⟨e2, hl2, hgc2⟩ := h3 t k2 b2 (harmed _ hmem)
        exact ⟨e2, by rw [hcache]; exact hl2, hgc2⟩
    | nil =>
      have hcache : (s.fireGC t0).cache = aerase key s.cache := by
        cases bx <;> simp [CacheState.fireGC, hf, hlK, hsubs]
      have harmed : ∀ y, y ∈ (s.fireGC t0).armedTimers →
          y ∈ s.armedTimers ∧ y.1 ≠ t0 := by
        intro y hy
        have harm_eq : (s.fireGC t0).armedTimers =
            s.armedTimers.filter (fun a => a.1 ≠ t0) := by
          cases bx <;> simp [CacheState.fireGC, hf, hlK, hsubs]
        rw [harm_eq] at hy
        simp only [List.mem_filter, decide_eq_true_eq] at hy
        exact hy
      refine ⟨?_, ?_, ?_⟩
      · rw [hcache]
        exact nodup_keys_aerase key s.cache h1
      · intro k2 e2 hl2 hs2
        rw [hcache] at hl2
        by_cases hk : k2 = key
        · subst hk
          rw [alookup_aerase_self k2 s.cache h1] at hl2
          exact absurd hl2 (by simp)
        · rw [alookup_aerase_ne key k2 s.cache hk] at hl2
          exact h2 k2 e2 hl2 hs2
      · intro t k2 b2 hmem
        obtain ⟨hmem', hne⟩ := harmed _ hmem
        obtain ⟨e2, hl2, hgc2⟩ := h3 t k2 b2 hmem'
        by_cases hk : k2 = key
        · subst hk
          rw [hlK] at hl2
          have he2 : e2 = eK := (Option.some.inj hl2).symm
          subst he2
          rw [hgcK] at hgc2
          exact absurd (Option.some.inj hgc2).symm hne
        · refine ⟨e2, ?_, hgc2⟩
          rw [hcache, alookup_aerase_ne key k2 s.cache hk]
          exact hl2

/-- Every operation of the cache preserves the subscriber/eviction
invariant. -/
theorem gcinv_step {α ε : Type} (s : CacheState α ε) (op : Op α ε)
    (h : GCInv s) : GCInv (stepOp s op) := by
  cases op with
  | get k b => exact gcinv_get s k b h
  | fetchStart k b => exact gcinv_fetchStart s k b h
  | settle k r now => exact gcinv_settle s k r now h
  | invalidate k => exact gcinv_invalidate s k h
  | invalidateByKey b => exact gcinv_invalidateByKey s b h
  | invalidateAll => exact gcinv_invalidateAll s h
  | remove k b => exact gcinv_remove s k b h
  | removeByKey b => exact gcinv_removeByKey s b h
  | subscribe k cb b => exact gcinv_subscribe s k cb b h
  | unsubscribe k cb => exact gcinv_unsubscribe s k cb h
  | scheduleGC k t b => exact gcinv_scheduleGC s k t b h
  | fireGC tid => exact gcinv_fireGC s tid h

theorem gcinv_initial {α ε : Type} : GCInv (CacheState.initial (α := α) (ε := ε)) := by
  refine ⟨?_, ?_, ?_⟩ <;> simp [CacheState.initial, alookup]

theorem gcinv_runOps {α ε : Type} (ops : List (Op α ε)) :
    ∀ s : CacheState α ε, GCInv s → GCInv (runOps s ops) := by
  induction ops with
  | nil => intro s h; exact h
  | cons op t ih => intro s h; exact ih _ (gcinv_step s op h)

/-- `subscribe` cancels the entry's pending eviction timer: the timer
handle is nulled, the callback is registered, and the timer id is no
longer armed anywhere. -/
theorem subscribe_cancels_timer {α ε : Type} (s : CacheState α ε)
    (k : String) (cb : Nat) (b : Option String) (e : Entry α ε) (tid : Nat)
    (hl : alookup k s.cache = some e) (hgc : e.gcTimeout = some tid) :
    (∃ e', alookup k (s.subscribe k cb b).cache = some e' ∧
      e'.gcTimeout = none ∧ cb ∈ e'.subscribers) ∧
    ∀ x ∈ (s.subscribe k cb b).armedTimers, x.1 ≠ tid := by
  obtain ⟨hc, he, -, ha, -⟩ := get_of_mem s k b e hl
  have hcc : (s.subscribe k cb b).cache =
      aset k ({ e with
        gcTimeout := none,
        subscribers := if cb ∈ e.subscribers then e.subscribers
                       else e.subscribers ++ [cb] }) s.cache := by
    simp [CacheState.subscribe, he, hc, clearTimer, hgc]
  constructor
  · refine ⟨{ e with
        gcTimeout := none,
        subscribers := if cb ∈ e.subscribers then e.subscribers
                       else e.subscribers ++ [cb] }, ?_, rfl, ?_⟩
    · rw [hcc]
      exact alookup_aset_self k _ s.cache
    · by_cases hmem : cb ∈ e.subscribers <;> simp [hmem]
  · intro x hx
    simp [CacheState.subscribe, he, hgc, ha, clearTimer,
      List.mem_filter] at hx
    exact hx.2

/-- `scheduleGC` is a no-op on an entry that still has subscribers. -/
theorem scheduleGC_noop_subscribed {α ε : Type} (s : CacheState α ε)
    (k : String) (ct : Option Nat) (b : Option String) (e : Entry α ε)
    (hl : alookup k s.cache = some e) (hs : e.subscribers ≠ []) :
    s.scheduleGC k ct b = s := by
  simp [CacheState.scheduleGC, hl, hs]

/-- A firing eviction timer never deletes an entry that has subscribers. -/
theorem fireGC_keeps_subscribed {α ε : Type} (s : CacheState α ε)
    (tid : Nat) (k2 : String) (e : Entry α ε)
    (hl : alookup k2 s.cache = some e) (hs : e.subscribers ≠ []) :
    alookup k2 (s.fireGC tid).cache = some e := by
  cases hf : s.armedTimers.find? (fun a => a.1 = tid) with
  | none => simp [CacheState.fireGC, hf, hl]
  | some x =>
    obtain ⟨t0, key, bx⟩ := x
    by_cases hk : key = k2
    · subst hk
      simp [CacheState.fireGC, hf, hl, hs]
    · cases hlK : alookup key s.cache with
      | none => simp [CacheState.fireGC, hf, hlK, hl]
      | some eK =>
        cases hsubs : eK.subscribers with
        | nil =>
          cases bx <;>
            simp [CacheState.fireGC, hf, hlK, hsubs, hl,
              alookup_aerase_ne key k2 s.cache (fun hc => hk hc.symm)]
        | cons c cs => simp [CacheState.fireGC, hf, hlK, hsubs, hl]

/-- A `subscribe` occurring before the entry's pending eviction timer
fires deterministically cancels it: firing the old timer id afterwards
changes nothing, and the entry survives with the new subscriber. -/
theorem subscribe_beats_fire {α ε : Type} (s : CacheState α ε) (k : String)
    (cb : Nat) (b : Option String) (e : Entry α ε) (tid : Nat)
    (hl : alookup k s.cache = some e) (hgc : e.gcTimeout = some tid) :
    (s.subscribe k cb b).fireGC tid = s.subscribe k cb b ∧
    ∃ e', alookup k ((s.subscribe k cb b).fireGC tid).cache = some e' ∧
      cb ∈ e'.subscribers := by
  obtain ⟨⟨e', hle, hgce, hcbe⟩, hnone⟩ :=
    subscribe_cancels_timer s k cb b e tid hl hgc
  have hfind : (s.subscribe k cb b).armedTimers.find?
      (fun a => a.1 = tid) = none := by
    rw [List.find?_eq_none]
    intro x hx
    simpa using hnone x hx
  have hid : (s.subscribe k cb b).fireGC tid = s.subscribe k cb b := by
    simp [CacheState.fireGC, hfind]
  refine ⟨hid, e', ?_, hcbe⟩
  rw [hid]
  exact hle


/-! ## Preservation of the family-registry invariant (coherent callers) -/

theorem reginv_of_eq {α ε : Type} (baseOf : String → String)
    (s s' : CacheState α ε) (hc : s'.cache = s.cache)
    (hr : s'.keyRegistry = s.keyRegistry)
    (ha : s'.armedTimers = s.armedTimers)
    (h : RegInv baseOf s) : RegInv baseOf s' := by
  obtain ⟨h1, h1r, h2, h3, h4⟩ := h
  refine ⟨by rw [hc]; exact h1, by rw [hr]; exact h1r, ?_, ?_, ?_⟩
  · intro b fam hf
    rw [hr] at hf
    obtain ⟨hne, hnd, hmem⟩ := h2 b fam hf
    refine ⟨hne, hnd, fun c hcf => ?_⟩
    obtain ⟨hb, hres⟩ := hmem c hcf
    exact ⟨hb, by rw [hc]; exact hres⟩
  · intro c hres
    rw [hc] at hres
    obtain ⟨fam, hf, hcf⟩ := h3 c hres
    exact ⟨fam, by rw [hr]; exact hf, hcf⟩
  · intro t k2 bk hmem
    rw [ha] at hmem
    exact h4 t k2 bk hmem

/-- Updating a resident entry in place (registry and armed timers
unchanged) preserves the registry invariant. -/
theorem reginv_aset_resident {α ε : Type} (baseOf : String → String)
    (s s' : CacheState α ε) (k : String) (e' : Entry α ε)
    (hl : (alookup k s.cache).isSome)
    (hc : s'.cache = aset k e' s.cache)
    (hr : s'.keyRegistry = s.keyRegistry)
    (ha : s'.armedTimers = s.armedTimers)
    (h : RegInv baseOf s) : RegInv baseOf s' := by
  obtain ⟨h1, h1r, h2, h3, h4⟩ := h
  refine ⟨by rw [hc]; exact nodup_keys_aset k e' s.cache h1,
          by rw [hr]; exact h1r, ?_, ?_, ?_⟩
  · intro b fam hf
    rw [hr] at hf
    obtain ⟨hne, hnd, hmem⟩ := h2 b fam hf
    refine ⟨hne, hnd, fun c hcf => ?_⟩
    obtain ⟨hb, hres⟩ := hmem c hcf
    refine ⟨hb, ?_⟩
    rw [hc, alookup_aset_isSome]
    exact Or.inr hres
  · intro c hres
    rw [hc, alookup_aset_isSome] at hres
    have hres' : (alookup c s.cache).isSome := by
      rcases hres with hck | hres
      · rw [hck]; exact hl
      · exact hres
    obtain ⟨fam, hf, hcf⟩ := h3 c hres'
    exact ⟨fam, by rw [hr]; exact hf, hcf⟩
  · intro t k2 bk hmem
    rw [ha] at hmem
    exact h4 t k2 bk hmem

/-- A state whose entry-map domain extends the old one with key `k` and
whose registry registered `k` under its own family satisfies the registry
invariant. -/
theorem reginv_register_state {α ε : Type} (baseOf : String → String)
    (s s' : CacheState α ε) (k : String)
    (hres : ∀ c, (alookup c s'.cache).isSome ↔
      c = k ∨ (alookup c s.cache).isSome)
    (hcn : (s'.cache.map Prod.fst).Nodup)
    (hr : s'.keyRegistry = registerKey k (baseOf k) s.keyRegistry)
    (ha : s'.armedTimers = s.armedTimers)
    (h : RegInv baseOf s) : RegInv baseOf s' := by
  obtain ⟨h1, h1r, h2, h3, h4⟩ := h
  obtain ⟨famK, hfK, hkK, hneK, hextK, hndK, hsupK⟩ :=
    alookup_registerKey_self k (baseOf k) s.keyRegistry
  refine ⟨hcn, by rw [hr]; exact nodup_keys_registerKey k (baseOf k) _ h1r,
          ?_, ?_, ?_⟩
  · intro b fam hf
    rw [hr] at hf
    by_cases hb : b = baseOf k
    · subst hb
      rw [hfK] at hf
      have hfam : fam = famK := (Option.some.inj hf).symm
      subst hfam
      refine ⟨hneK, hndK (fun fam0 h0 => (h2 _ fam0 h0).2.1), ?_⟩
      intro c hcf
      rcases hextK c hcf with hck | ⟨fam0, hf0, hc0⟩
      · subst hck
        exact ⟨rfl, (hres c).mpr (Or.inl rfl)⟩
      · obtain ⟨-, -, hmem0⟩ := h2 _ fam0 hf0
        obtain ⟨hb0, hres0⟩ := hmem0 c hc0
        exact ⟨hb0, (hres c).mpr (Or.inr hres0)⟩
    · rw [alookup_registerKey_ne k (baseOf k) b s.keyRegistry hb] at hf
      obtain ⟨hne, hnd, hmem⟩ := h2 b fam hf
      refine ⟨hne, hnd, fun c hcf => ?_⟩
      obtain ⟨hb0, hres0⟩ := hmem c hcf
      exact ⟨hb0, (hres c).mpr (Or.inr hres0)⟩
  · intro c hresC
    rcases (hres c).mp hresC with hck | hresold
    · subst hck
      exact ⟨famK, by rw [hr]; exact hfK, hkK⟩
    · obtain ⟨fam, hf, hcf⟩ := h3 c hresold
      by_cases hb : baseOf c = baseOf k
      · rw [hb] at hf
        refine ⟨famK, ?_, hsupK fam hf c hcf⟩
        rw [hr, hb]
        exact hfK
      · refine ⟨fam, ?_, hcf⟩
        rw [hr, alookup_registerKey_ne k (baseOf k) (baseOf c) s.keyRegistry hb]
        exact hf
  · intro t k2 bk hmem
    rw [ha] at hmem
    exact h4 t k2 bk hmem

/-- After `get`, the requested key is resident. -/
theorem get_resident {α ε : Type} (s : CacheState α ε) (k : String)
    (b : Option String) : (alookup k (s.get k b).1.cache).isSome := by
  cases hl : alookup k s.cache with
  | some e =>
    obtain ⟨hc, -, -, -, -⟩ := get_of_mem s k b e hl
    rw [hc, hl]
    rfl
  | none =>
    obtain ⟨hc, -, -, -⟩ := get_of_absent s k b hl
    rw [hc, alookup_aset_self]
    rfl

theorem reginv_get {α ε : Type} (baseOf : String → String)
    (s : CacheState α ε) (k : String) (h : RegInv baseOf s) :
    RegInv baseOf (s.get k (some (baseOf k))).1 := by
  have hreg : (s.get k (some (baseOf k))).1.keyRegistry =
      registerKey k (baseOf k) s.keyRegistry := by
    cases hl : alookup k s.cache <;> simp [CacheState.get, hl]
  cases hl : alookup k s.cache with
  | some e =>
    obtain ⟨hc, -, -, ha, -⟩ := get_of_mem s k (some (baseOf k)) e hl
    refine reginv_register_state baseOf s _ k ?_ ?_ hreg ha h
    · intro c
      rw [hc]
      constructor
      · exact fun hx => Or.inr hx
      · intro hx
        rcases hx with hck | hx
        · rw [hck, hl]; rfl
        · exact hx
    · rw [hc]; exact h.1
  | none =>
    obtain ⟨hc, -, -, ha⟩ := get_of_absent s k (some (baseOf k)) hl
    refine reginv_register_state baseOf s _ k ?_ ?_ hreg ha h
    · intro c
      rw [hc]
      exact alookup_aset_isSome c k _ s.cache
    · rw [hc]
      exact nodup_keys_aset k _ s.cache h.1

theorem reginv_fetchStart {α ε : Type} (baseOf : String → String)
    (s : CacheState α ε) (k : String) (h : RegInv baseOf s) :
    RegInv baseOf (s.fetchStart k (some (baseOf k))).1 := by
  have hg : RegInv baseOf (s.get k (some (baseOf k))).1 :=
    reginv_get baseOf s k h
  cases hp : (s.get k (some (baseOf k))).2.promise with
  | some p =>
    have heq : (s.fetchStart k (some (baseOf k))).1 =
        (s.get k (some (baseOf k))).1 := by
      simp [CacheState.fetchStart, hp]
    rw [heq]
    exact hg
  | none =>
    have hke : (alookup k (s.get k (some (baseOf k))).1.cache).isSome :=
      get_resident s k _
    have h2' : RegInv baseOf
        ({ (s.get k (some (baseOf k))).1 with
           cache := aset k
             (if (s.get k (some (baseOf k))).2.status = QueryStatus.idle
              then { (s.get k (some (baseOf k))).2 with status := .loading }
              else (s.get k (some (baseOf k))).2)
             (s.get k (some (baseOf k))).1.cache } : CacheState α ε) :=
      reginv_aset_resident baseOf _ _ k _ hke rfl rfl rfl hg
    have hke2 : (alookup k
        (aset k
          (if (s.get k (some (baseOf k))).2.status = QueryStatus.idle
           then { (s.get k (some (baseOf k))).2 with status := .loading }
           else (s.get k (some (baseOf k))).2)
          (s.get k (some (baseOf k))).1.cache)).isSome := by
      rw [alookup_aset_self]
      rfl
    have h3' := reginv_aset_resident baseOf _
      ((s.fetchStart k (some (baseOf k))).1) k
      ({ (if (s.get k (some (baseOf k))).2.status = QueryStatus.idle
          then { (s.get k (some (baseOf k))).2 with status := .loading }
          else (s.get k (some (baseOf k))).2) with
         promise := some (s.get k (some (baseOf k))).1.nextPromiseId })
      hke2 ?_ ?_ ?_ h2'
    · exact h3'
    · simp [CacheState.fetchStart, hp]
    · simp [CacheState.fetchStart, hp]
    · simp [CacheState.fetchStart, hp]

theorem reginv_settle {α ε : Type} (baseOf : String → String)
    (s : CacheState α ε) (k : String) (res : Except ε α) (now : Nat)
    (h : RegInv baseOf s) : RegInv baseOf (s.settle k res now).1 := by
  cases hl : alookup k s.cache with
  | none => simpa [CacheState.settle, hl] using h
  | some e =>
    cases res with
    | ok v =>
      refine reginv_aset_resident baseOf s _ k
        ({ e with
           data := some v, error := none, status := .success,
           fetchedAt := now, promise := none }) (by rw [hl]; rfl)
        ?_ ?_ ?_ h <;> simp [CacheState.settle, hl]
    | error err =>
      refine reginv_aset_resident baseOf s _ k
        ({ e with
           error := some err,
           status := if e.data.isNone then .error else e.status,
           promise := none }) (by rw [hl]; rfl)
        ?_ ?_ ?_ h <;> simp [CacheState.settle, hl]

theorem reginv_invalidate {α ε : Type} (baseOf : String → String)
    (s : CacheState α ε) (k : String) (h : RegInv baseOf s) :
    RegInv baseOf (s.invalidate k).1 := by
  cases hl : alookup k s.cache with
  | none => simpa [CacheState.invalidate, hl] using h
  | some e =>
    refine reginv_aset_resident baseOf s _ k ({ e with fetchedAt := 0 })
      (by rw [hl]; rfl) ?_ ?_ ?_ h <;> simp [CacheState.invalidate, hl]

theorem reginv_foldl {α ε : Type} (baseOf : String → String)
    (f : CacheState α ε → String → CacheState α ε)
    (hf : ∀ s x, RegInv baseOf s → RegInv baseOf (f s x)) :
    ∀ (l : List String) (s : CacheState α ε),
      RegInv baseOf s → RegInv baseOf (l.foldl f s) := by
  intro l
  induction l with
  | nil => intro s h; exact h
  | cons x t ih => intro s h; exact ih _ (hf s x h)

theorem reginv_invalidateByKey {α ε : Type} (baseOf : String → String)
    (s : CacheState α ε) (b : String) (h : RegInv baseOf s) :
    RegInv baseOf (s.invalidateByKey b) := by
  cases hr : alookup b s.keyRegistry with
  | none => simpa [CacheState.invalidateByKey, hr] using h
  | some fam =>
    simp only [CacheState.invalidateByKey, hr]
    exact reginv_foldl baseOf _
      (fun s' x h' => reginv_invalidate baseOf s' x h') fam s h

theorem reginv_invalidateAll {α ε : Type} (baseOf : String → String)
    (s : CacheState α ε) (h : RegInv baseOf s) :
    RegInv baseOf s.invalidateAll :=
  reginv_foldl baseOf _
    (fun s' x h' => reginv_invalidate baseOf s' x h') _ s h

theorem reginv_unsubscribe {α ε : Type} (baseOf : String → String)
    (s : CacheState α ε) (k : String) (cb : Nat) (h : RegInv baseOf s) :
    RegInv baseOf (s.unsubscribe k cb) := by
  cases hl : alookup k s.cache with
  | none => simpa [CacheState.unsubscribe, hl] using h
  | some e =>
    refine reginv_aset_resident baseOf s _ k
      ({ e with subscribers := e.subscribers.erase cb })
      (by rw [hl]; rfl) ?_ ?_ ?_ h <;> simp [CacheState.unsubscribe, hl]

/-- Variant of `reginv_aset_resident` where the armed timers shrink. -/
theorem reginv_aset_resident_sub {α ε : Type} (baseOf : String → String)
    (s s' : CacheState α ε) (k : String) (e' : Entry α ε)
    (hl : (alookup k s.cache).isSome)
    (hc : s'.cache = aset k e' s.cache)
    (hr : s'.keyRegistry = s.keyRegistry)
    (ha : ∀ x ∈ s'.armedTimers, x ∈ s.armedTimers)
    (h : RegInv baseOf s) : RegInv baseOf s' := by
  obtain ⟨h1, h1r, h2, h3, h4⟩ := h
  refine ⟨by rw [hc]; exact nodup_keys_aset k e' s.cache h1,
          by rw [hr]; exact h1r, ?_, ?_, ?_⟩
  · intro b fam hf
    rw [hr] at hf
    obtain ⟨hne, hnd, hmem⟩ := h2 b fam hf
    refine ⟨hne, hnd, fun c hcf => ?_⟩
    obtain ⟨hb, hres⟩ := hmem c hcf
    refine ⟨hb, ?_⟩
    rw [hc, alookup_aset_isSome]
    exact Or.inr hres
  · intro c hres
    rw [hc, alookup_aset_isSome] at hres
    have hres' : (alookup c s.cache).isSome := by
      rcases hres with hck | hres
      · rw [hck]; exact hl
      · exact hres
    obtain ⟨fam, hf, hcf⟩ := h3 c hres'
    exact ⟨fam, by rw [hr]; exact hf, hcf⟩
  · intro t k2 bk hmem
    exact h4 t k2 bk (ha _ hmem)

/-- Deleting a resident entry together with its own family registration
preserves the registry invariant. -/
theorem reginv_delete_state {α ε : Type} (baseOf : String → String)
    (s s' : CacheState α ε) (k : String)
    (hl : (alookup k s.cache).isSome)
    (hc : s'.cache = aerase k s.cache)
    (hr : s'.keyRegistry = unregisterKey k (baseOf k) s.keyRegistry)
    (ha : ∀ x ∈ s'.armedTimers, x ∈ s.armedTimers)
    (h : RegInv baseOf s) : RegInv baseOf s' := by
  obtain ⟨h1, h1r, h2, h3, h4⟩ := h
  refine ⟨by rw [hc]; exact nodup_keys_aerase k s.cache h1,
          by rw [hr]; exact nodup_keys_unregisterKey k (baseOf k) _ h1r,
          ?_, ?_, ?_⟩
  · intro b fam hf
    rw [hr] at hf
    by_cases hb : b = baseOf k
    · subst hb
      rw [alookup_unregisterKey_self k (baseOf k) s.keyRegistry h1r] at hf
      cases hfam : alookup (baseOf k) s.keyRegistry with
      | none =>
        rw [hfam] at hf
        exact absurd hf (by simp)
      | some fam0 =>
        rw [hfam] at hf
        by_cases he : fam0.erase k = []
        · rw [show (match some fam0 with
              | none => none
              | some fam1 =>
                if fam1.erase k = [] then none
                else some (fam1.erase k)) =
              (if fam0.erase k = [] then none
               else some (fam0.erase k) : Option (List String)) from rfl,
            if_pos he] at hf
          exact absurd hf (by simp)
        · rw [show (match some fam0 with
              | none => none
              | some fam1 =>
                if fam1.erase k = [] then none
                else some (fam1.erase k)) =
              (if fam0.erase k = [] then none
               else some (fam0.erase k) : Option (List String)) from rfl,
            if_neg he] at hf
          have hfe : fam = fam0.erase k := (Option.some.inj hf).symm
          subst hfe
          obtain ⟨hne0, hnd0, hmem0⟩ := h2 (baseOf k) fam0 hfam
          refine ⟨he, hnd0.erase k, ?_⟩
          intro c hcf
          have hin := (hnd0.mem_erase_iff).mp hcf
          obtain ⟨hckne, hcf0⟩ := hin
          obtain ⟨hb0, hres0⟩ := hmem0 c hcf0
          refine ⟨hb0, ?_⟩
          rw [hc, alookup_aerase_ne k c s.cache hckne]
          exact hres0
    · rw [alookup_unregisterKey_ne k (baseOf k) b s.keyRegistry hb] at hf
      obtain ⟨hne, hnd, hmem⟩ := h2 b fam hf
      refine ⟨hne, hnd, fun c hcf => ?_⟩
      obtain ⟨hb0, hres0⟩ := hmem c hcf
      have hck : c ≠ k := by
        intro hck
        subst hck
        exact hb (hb0 ▸ rfl)
      refine ⟨hb0, ?_⟩
      rw [hc, alookup_aerase_ne k c s.cache hck]
      exact hres0
  · intro c hres
    rw [hc] at hres
    have hck : c ≠ k := by
      intro hck
      subst hck
      rw [alookup_aerase_self c s.cache h1] at hres
      exact absurd hres (by simp)
    rw [alookup_aerase_ne k c s.cache hck] at hres
    obtain ⟨fam, hf, hcf⟩ := h3 c hres
    by_cases hb : baseOf c = baseOf k
    · rw [hb] at hf
      obtain ⟨-, hnd0, -⟩ := h2 (baseOf k) fam hf
      have hcin : c ∈ fam.erase k := (hnd0.mem_erase_iff).mpr ⟨hck, hcf⟩
      have he : fam.erase k ≠ [] := by
        intro he
        rw [he] at hcin
        exact absurd hcin (by simp)
      have hres2 : alookup (baseOf k) (unregisterKey k (baseOf k) s.keyRegistry) =
          some (fam.erase k) := by
        rw [alookup_unregisterKey_self k (baseOf k) s.keyRegistry h1r, hf]
        simp [he]
      rw [hr, hb]
      exact ⟨fam.erase k, hres2, hcin⟩
    · rw [hr, alookup_unregisterKey_ne k (baseOf k) (baseOf c) s.keyRegistry hb]
      exact ⟨fam, hf, hcf⟩
  · intro t k2 bk hmem
    exact h4 t k2 bk (ha _ hmem)

theorem reginv_remove {α ε : Type} (baseOf : String → String)
    (s : CacheState α ε) (k : String) (h : RegInv baseOf s) :
    RegInv baseOf (s.remove k (some (baseOf k))) := by
  cases hl : alookup k s.cache with
  | some e =>
    refine reginv_delete_state baseOf s _ k (by rw [hl]; rfl) ?_ ?_ ?_ h
    · cases hgc : e.gcTimeout <;>
        simp [CacheState.remove, hl, clearTimer, hgc]
    · cases hgc : e.gcTimeout <;>
        simp [CacheState.remove, hl, clearTimer, hgc]
    · intro x hx
      cases hgc : e.gcTimeout with
      | none =>
        simpa [CacheState.remove, hl, clearTimer, hgc] using hx
      | some tid =>
        simp [CacheState.remove, hl, clearTimer, hgc, List.mem_filter] at hx
        exact hx.1
  | none =>
    obtain ⟨h1, h1r, h2, h3, h4⟩ := h
    have hknotin : ∀ fam, alookup (baseOf k) s.keyRegistry = some fam →
        k ∉ fam := by
      intro fam hf hk
      obtain ⟨-, -, hmem⟩ := h2 _ fam hf
      obtain ⟨-, hres⟩ := hmem k hk
      rw [hl] at hres
      exact absurd hres (by simp)
    have hcache : (s.remove k (some (baseOf k))).cache = s.cache := by
      simp [CacheState.remove, hl]
    have harm : (s.remove k (some (baseOf k))).armedTimers =
        s.armedTimers := by
      simp [CacheState.remove, hl]
    have hrm : (s.remove k (some (baseOf k))).keyRegistry =
        unregisterKey k (baseOf k) s.keyRegistry := by
      simp [CacheState.remove, hl]
    have hreg : ∀ b', alookup b' (s.remove k (some (baseOf k))).keyRegistry =
        alookup b' s.keyRegistry := by
      intro b'
      rw [hrm]
      by_cases hb : b' = baseOf k
      · subst hb
        rw [alookup_unregisterKey_self k (baseOf k) s.keyRegistry h1r]
        cases hf : alookup (baseOf k) s.keyRegistry with
        | none => rfl
        | some fam =>
          have herase : fam.erase k = fam :=
            List.erase_of_not_mem (hknotin fam hf)
          obtain ⟨hne, -, -⟩ := h2 (baseOf k) fam hf
          simp [herase, hne]
      · exact alookup_unregisterKey_ne k (baseOf k) b' s.keyRegistry hb
    refine ⟨by rw [hcache]; exact h1,
            by rw [hrm]; exact nodup_keys_unregisterKey k (baseOf k) _ h1r,
            ?_, ?_, ?_⟩
    · intro b fam hf
      rw [hreg b] at hf
      obtain ⟨hne, hnd, hmem⟩ := h2 b fam hf
      refine ⟨hne, hnd, fun c hcf => ?_⟩
      obtain ⟨hb0, hres0⟩ := hmem c hcf
      exact ⟨hb0, by rw [hcache]; exact hres0⟩
    · intro c hres
      rw [hcache] at hres
      obtain ⟨fam, hf, hcf⟩ := h3 c hres
      refine ⟨fam, ?_, hcf⟩
      rw [hreg (baseOf c)]
      exact hf
    · intro t k2 bk hmem
      rw [harm] at hmem
      exact h4 t k2 bk hmem

theorem reginv_removeByKey {α ε : Type} (baseOf : String → String)
    (s : CacheState α ε) (b : String) (h : RegInv baseOf s) :
    RegInv baseOf (s.removeByKey b) := by
  cases hr : alookup b s.keyRegistry with
  | none => simpa [CacheState.removeByKey, hr] using h
  | some fam =>
    have hbase : ∀ c ∈ fam, baseOf c = b := by
      intro c hc
      exact ((h.2.2.1 b fam hr).2.2 c hc).1
    have hfold : ∀ (l : List String) (s' : CacheState α ε),
        (∀ c ∈ l, baseOf c = b) → RegInv baseOf s' →
        RegInv baseOf (l.foldl (fun acc c => acc.remove c (some b)) s') := by
      intro l
      induction l with
      | nil => intro s' _ h'; exact h'
      | cons c t ih =>
        intro s' hcoh h'
        have hb : baseOf c = b := hcoh c (by simp)
        have h'' : RegInv baseOf (s'.remove c (some b)) := by
          rw [← hb]
          exact reginv_remove baseOf s' c h'
        exact ih _ (fun x hx => hcoh x (by simp [hx])) h''
    simp only [CacheState.removeByKey, hr]
    exact hfold fam s hbase h

theorem reginv_subscribe {α ε : Type} (baseOf : String → String)
    (s : CacheState α ε) (k : String) (cb : Nat) (h : RegInv baseOf s) :
    RegInv baseOf (s.subscribe k cb (some (baseOf k))) := by
  have hg : RegInv baseOf (s.get k (some (baseOf k))).1 :=
    reginv_get baseOf s k h
  have hke := get_resident s k (some (baseOf k))
  refine reginv_aset_resident_sub baseOf ((s.get k (some (baseOf k))).1) _ k
    ({ (s.get k (some (baseOf k))).2 with
       gcTimeout := none,
       subscribers :=
         if cb ∈ (s.get k (some (baseOf k))).2.subscribers
         then (s.get k (some (baseOf k))).2.subscribers
         else (s.get k (some (baseOf k))).2.subscribers ++ [cb] })
    hke ?_ ?_ ?_ hg
  · cases hgc : (s.get k (some (baseOf k))).2.gcTimeout <;>
      simp [CacheState.subscribe, clearTimer, hgc]
  · cases hgc : (s.get k (some (baseOf k))).2.gcTimeout <;>
      simp [CacheState.subscribe, clearTimer, hgc]
  · intro x hx
    cases hgc : (s.get k (some (baseOf k))).2.gcTimeout with
    | none =>
      simpa [CacheState.subscribe, clearTimer, hgc] using hx
    | some tid =>
      simp [CacheState.subscribe, clearTimer, hgc, List.mem_filter] at hx
      exact hx.1

theorem reginv_scheduleGC {α ε : Type} (baseOf : String → String)
    (s : CacheState α ε) (k : String) (ct : Option Nat)
    (h : RegInv baseOf s) :
    RegInv baseOf (s.scheduleGC k ct (some (baseOf k))) := by
  cases hl : alookup k s.cache with
  | none => simpa [CacheState.scheduleGC, hl] using h
  | some e =>
    by_cases hs : e.subscribers = []
    case neg => simpa [CacheState.scheduleGC, hl, hs] using h
    case pos =>
      obtain ⟨h1, h1r, h2, h3, h4⟩ := h
      cases ct with
      | none =>
        have hcache : (s.scheduleGC k none (some (baseOf k))).cache =
            s.cache := by
          cases hgc : e.gcTimeout <;>
            simp [CacheState.scheduleGC, hl, hs, clearTimer, hgc]
        have hrm : (s.scheduleGC k none (some (baseOf k))).keyRegistry =
            s.keyRegistry := by
          cases hgc : e.gcTimeout <;>
            simp [CacheState.scheduleGC, hl, hs, clearTimer, hgc]
        have harm : ∀ x, x ∈ (s.scheduleGC k none (some (baseOf k))).armedTimers →
            x ∈ s.armedTimers := by
          intro x hx
          cases hgc : e.gcTimeout with
          | none =>
            simpa [CacheState.scheduleGC, hl, hs, clearTimer, hgc] using hx
          | some tid =>
            simp [CacheState.scheduleGC, hl, hs, clearTimer, hgc,
              List.mem_filter] at hx
            exact hx.1
        refine ⟨by rw [hcache]; exact h1, by rw [hrm]; exact h1r, ?_, ?_, ?_⟩
        · intro b fam hf
          rw [hrm] at hf
          obtain ⟨hne, hnd, hmem⟩ := h2 b fam hf
          refine ⟨hne, hnd, fun c hcf => ?_⟩
          obtain ⟨hb0, hres0⟩ := hmem c hcf
          exact ⟨hb0, by rw [hcache]; exact hres0⟩
        · intro c hres
          rw [hcache] at hres
          obtain ⟨fam, hf, hcf⟩ := h3 c hres
          exact ⟨fam, by rw [hrm]; exact hf, hcf⟩
        · intro t k2 bk hmem
          exact h4 t k2 bk (harm _ hmem)
      | some ctv =>
        have hcache : (s.scheduleGC k (some ctv) (some (baseOf k))).cache =
            aset k ({ e with gcTimeout := some s.nextTimerId }) s.cache := by
          cases hgc : e.gcTimeout <;>
            simp [CacheState.scheduleGC, hl, hs, clearTimer, hgc]
        have hrm : (s.scheduleGC k (some ctv) (some (baseOf k))).keyRegistry =
            s.keyRegistry := by
          cases hgc : e.gcTimeout <;>
            simp [CacheState.scheduleGC, hl, hs, clearTimer, hgc]
        have harm : ∀ x, x ∈ (s.scheduleGC k (some ctv) (some (baseOf k))).armedTimers →
            x = (s.nextTimerId, k, some (baseOf k)) ∨ x ∈ s.armedTimers := by
          intro x hx
          cases hgc : e.gcTimeout with
          | none =>
            simp [CacheState.scheduleGC, hl, hs, clearTimer, hgc] at hx
            rcases hx with hx | hx
            · right; exact hx
            · left; simp [hx]
          | some tid =>
            simp [CacheState.scheduleGC, hl, hs, clearTimer, hgc,
              List.mem_filter] at hx
            rcases hx with hx | hx
            · right; exact hx.1
            · left; simp [hx]
        refine ⟨by rw [hcache]; exact nodup_keys_aset k _ s.cache h1,
                by rw [hrm]; exact h1r, ?_, ?_, ?_⟩
        · intro b fam hf
          rw [hrm] at hf
          obtain ⟨hne, hnd, hmem⟩ := h2 b fam hf
          refine ⟨hne, hnd, fun c hcf => ?_⟩
          obtain ⟨hb0, hres0⟩ := hmem c hcf
          refine ⟨hb0, ?_⟩
          rw [hcache, alookup_aset_isSome]
          exact Or.inr hres0
        · intro c hres
          rw [hcache, alookup_aset_isSome] at hres
          have hres' : (alookup c s.cache).isSome := by
            rcases hres with hck | hres
            · rw [hck, hl]; rfl
            · exact hres
          obtain ⟨fam, hf, hcf⟩ := h3 c hres'
          exact ⟨fam, by rw [hrm]; exact hf, hcf⟩
        · intro t k2 bk hmem
          rcases harm _ hmem with hx | hx
          · simp only [Prod.mk.injEq] at hx
            obtain ⟨-, hk2, hbk⟩ := hx
            rw [hbk, hk2]
          · exact h4 t k2 bk hx

theorem reginv_fireGC {α ε : Type} (baseOf : String → String)
    (s : CacheState α ε) (tid : Nat) (h : RegInv baseOf s) :
    RegInv baseOf (s.fireGC tid) := by
  cases hf : s.armedTimers.find? (fun a => a.1 = tid) with
  | none => simpa [CacheState.fireGC, hf] using h
  | some x =>
    obtain ⟨t0, key, bx⟩ := x
    have hx : (t0, key, bx) ∈ s.armedTimers := List.mem_of_find?_eq_some hf
    have hbx : bx = some (baseOf key) := h.2.2.2.2 t0 key bx hx
    subst hbx
    cases hlK : alookup key s.cache with
    | none =>
      have hcache : (s.fireGC tid).cache = s.cache := by
        simp [CacheState.fireGC, hf, hlK]
      have hrm : (s.fireGC tid).keyRegistry = s.keyRegistry := by
        simp [CacheState.fireGC, hf, hlK]
      have harm : ∀ y, y ∈ (s.fireGC tid).armedTimers →
          y ∈ s.armedTimers := by
        intro y hy
        simp [CacheState.fireGC, hf, hlK, List.mem_filter] at hy
        exact hy.1
      obtain ⟨h1, h1r, h2, h3, h4⟩ := h
      refine ⟨by rw [hcache]; exact h1, by rw [hrm]; exact h1r, ?_, ?_, ?_⟩
      · intro b fam hff
        rw [hrm] at hff
        obtain ⟨hne, hnd, hmem⟩ := h2 b fam hff
        refine ⟨hne, hnd, fun c hcf => ?_⟩
        obtain ⟨hb0, hres0⟩ := hmem c hcf
        exact ⟨hb0, by rw [hcache]; exact hres0⟩
      · intro c hres
        rw [hcache] at hres
        obtain ⟨fam, hff, hcf⟩ := h3 c hres
        exact ⟨fam, by rw [hrm]; exact hff, hcf⟩
      · intro t k2 bk hmem
        exact h4 t k2 bk (harm _ hmem)
    | some eK =>
      cases hsubs : eK.subscribers with
      | cons c cs =>
        have hcache : (s.fireGC tid).cache = s.cache := by
          simp [CacheState.fireGC, hf, hlK, hsubs]
        have hrm : (s.fireGC tid).keyRegistry = s.keyRegistry := by
          simp [CacheState.fireGC, hf, hlK, hsubs]
        have harm : ∀ y, y ∈ (s.fireGC tid).armedTimers →
            y ∈ s.armedTimers := by
          intro y hy
          simp [CacheState.fireGC, hf, hlK, hsubs, List.mem_filter] at hy
          exact hy.1
        obtain ⟨h1, h1r, h2, h3, h4⟩ := h
        refine ⟨by rw [hcache]; exact h1, by rw [hrm]; exact h1r, ?_, ?_, ?_⟩
        · intro b fam hff
          rw [hrm] at hff
          obtain ⟨hne, hnd, hmem⟩ := h2 b fam hff
          refine ⟨hne, hnd, fun c2 hcf => ?_⟩
          obtain ⟨hb0, hres0⟩ := hmem c2 hcf
          exact ⟨hb0, by rw [hcache]; exact hres0⟩
        · intro c2 hres
          rw [hcache] at hres
          obtain ⟨fam, hff, hcf⟩ := h3 c2 hres
          exact ⟨fam, by rw [hrm]; exact hff, hcf⟩
        · intro t k2 bk hmem
          exact h4 t k2 bk (harm _ hmem)
      | nil =>
        refine reginv_delete_state baseOf s _ key (by rw [hlK]; rfl)
          ?_ ?_ ?_ h
        · simp [CacheState.fireGC, hf, hlK, hsubs]
        · simp [CacheState.fireGC, hf, hlK, hsubs]
        · intro y hy
          simp [CacheState.fireGC, hf, hlK, hsubs, List.mem_filter] at hy
          exact hy.1

theorem reginv_initial {α ε : Type} (baseOf : String → String) :
    RegInv baseOf (CacheState.initial (α := α) (ε := ε)) := by
  refine ⟨?_, ?_, ?_, ?_, ?_⟩ <;> simp [CacheState.initial, alookup]

/-- Every coherent operation preserves the registry invariant. -/
theorem reginv_step {α ε : Type} (baseOf : String → String)
    (s : CacheState α ε) (op : Op α ε) (hco : OpCoherent baseOf op)
    (h : RegInv baseOf s) : RegInv baseOf (stepOp s op) := by
  cases op with
  | get k b =>
    have hb : b = some (baseOf k) := hco
    rw [show stepOp s (Op.get k b) = (s.get k b).1 from rfl, hb]
    exact reginv_get baseOf s k h
  | fetchStart k b =>
    have hb : b = some (baseOf k) := hco
    rw [show stepOp s (Op.fetchStart k b) = (s.fetchStart k b).1 from rfl, hb]
    exact reginv_fetchStart baseOf s k h
  | settle k r now => exact reginv_settle baseOf s k r now h
  | invalidate k => exact reginv_invalidate baseOf s k h
  | invalidateByKey b => exact reginv_invalidateByKey baseOf s b h
  | invalidateAll => exact reginv_invalidateAll baseOf s h
  | remove k b =>
    have hb : b = some (baseOf k) := hco
    rw [show stepOp s (Op.remove k b) = s.remove k b from rfl, hb]
    exact reginv_remove baseOf s k h
  | removeByKey b => exact reginv_removeByKey baseOf s b h
  | subscribe k cb b =>
    have hb : b = some (baseOf k) := hco
    rw [show stepOp s (Op.subscribe k cb b) = s.subscribe k cb b from rfl, hb]
    exact reginv_subscribe baseOf s k cb h
  | unsubscribe k cb => exact reginv_unsubscribe baseOf s k cb h
  | scheduleGC k t b =>
    have hb : b = some (baseOf k) := hco
    rw [show stepOp s (Op.scheduleGC k t b) = s.scheduleGC k t b from rfl, hb]
    exact reginv_scheduleGC baseOf s k t h
  | fireGC tid => exact reginv_fireGC baseOf s tid h

theorem reginv_runOps {α ε : Type} (baseOf : String → String)
    (ops : List (Op α ε)) :
    ∀ s : CacheState α ε, (∀ op ∈ ops, OpCoherent baseOf op) →
      RegInv baseOf s → RegInv baseOf (runOps s ops) := by
  induction ops with
  | nil => intro s _ h; exact h
  | cons op t ih =>
    intro s hco h
    exact ih _ (fun o ho => hco o (by simp [ho]))
      (reginv_step baseOf s op (hco op (by simp)) h)

/-! ## Theorems for the pure helpers -/


/-- A lemma chain for `refetchLoop`: with every param of `pre` succeeding
(with data `g`) and `pfail` failing with `e`, the loop applies exactly the
pages of `pre` to the chain, attempts exactly `pre ++ [pfail]`, and
surfaces `e`. -/
theorem refetchLoop_spec {α ε : Type} (f : Int → Except ε α) (g : Int → α)
    (maxPages : Nat) (pfail : Int) (e : ε) (post : List Int) :
    ∀ (pre : List Int) (c : PageChain α),
    (∀ p ∈ pre, f p = .ok (g p)) → f pfail = .error e →
    refetchLoop f maxPages (pre ++ pfail :: post) c =
      ⟨applyPages c maxPages g pre, pre ++ [pfail], some e⟩ := by
  intro pre
  induction pre with
  | nil =>
    intro c _ hfail
    simp [refetchLoop, hfail, applyPages]
  | cons p pre ih =>
    intro c hok hfail
    have hp : f p = .ok (g p) := hok p (by simp)
    have hrest : ∀ q ∈ pre, f q = .ok (g q) := by
      intro q hq; exact hok q (by simp [hq])
    simp [refetchLoop, hp, ih _ hrest hfail, applyPages]

/-- C10: staleness boundary semantics of `isStale(fetchedAt, staleTime)`.
With `staleTime = Infinity` the result is false for every `fetchedAt`
(including 0); with a finite `staleTime`, `fetchedAt = 0` always yields
true, and otherwise the comparison is strict: an age exactly equal to
`staleTime` is still fresh, and the data is stale exactly when the age
strictly exceeds `staleTime`. -/
theorem isStale_boundary (now fetchedAt ms : Int) (h : fetchedAt ≠ 0) :
    (∀ t : Int, isStale now t .infinity = false) ∧
    isStale now 0 (.finite ms) = true ∧
    (isStale now fetchedAt (.finite ms) = true ↔ now - fetchedAt > ms) := by
  refine ⟨fun t => rfl, by simp [isStale], ?_⟩
  simp [isStale, h]

/-- Witness for `isStale_boundary` at `now = 2000`, `fetchedAt = 1000`,
`ms = 1000`: an age of exactly 1000 ms is still fresh. -/
theorem isStale_boundary_witness :
    (1000 : Int) ≠ 0 ∧
    ((∀ t : Int, isStale 2000 t .infinity = false) ∧
     isStale 2000 0 (.finite 1000) = true ∧
     (isStale 2000 1000 (.finite 1000) = true ↔ (2000 : Int) - 1000 > 1000)) :=
  ⟨by decide, isStale_boundary 2000 1000 1000 (by decide)⟩

/-- C8: sliding-window truncation in `fetchPage`.  Whenever `maxPages > 0`
and a successful page fetch makes the chain exceed it, an append keeps
exactly the last `maxPages` pages and params, a prepend keeps exactly the
first `maxPages`; after every operation `pageParams` has the same length
as `pages` (and the two lists are transformed identically, preserving
positional alignment); concretely, with `maxPages = 3` appending params
1, 2, 3, 4 in order leaves the resident chain `[2, 3, 4]`. -/
theorem applyPage_window {α : Type} (c : PageChain α) (maxPages : Nat)
    (p : Int) (d : α) (dir : Direction)
    (hlen : c.pages.length = c.pageParams.length) :
    ((applyPage c maxPages p d dir).pages.length =
      (applyPage c maxPages p d dir).pageParams.length) ∧
    (maxPages > 0 → c.pages.length + 1 > maxPages →
      (dir = .next →
        applyPage c maxPages p d dir =
          ⟨takeLast maxPages (c.pages ++ [d]),
           takeLast maxPages (c.pageParams ++ [p])⟩ ∧
        (applyPage c maxPages p d dir).pages.length = maxPages) ∧
      (dir = .previous →
        applyPage c maxPages p d dir =
          ⟨(d :: c.pages).take maxPages, (p :: c.pageParams).take maxPages⟩ ∧
        (applyPage c maxPages p d dir).pages.length = maxPages)) ∧
    (applyPages ⟨[], []⟩ 3 (fun n => n) [1, 2, 3, 4] =
      ⟨[2, 3, 4], [2, 3, 4]⟩) := by
  refine ⟨?_, ?_, by decide⟩
  · cases dir <;>
      simp only [applyPage] <;> split <;>
      simp_all [takeLast]
  · intro hpos hexceed
    constructor
    · rintro rfl
      have heq : applyPage c maxPages p d .next =
          ⟨takeLast maxPages (c.pages ++ [d]),
           takeLast maxPages (c.pageParams ++ [p])⟩ := by
        simp only [applyPage]
        split
        · rfl
        · rename_i hcon
          exact absurd ⟨hpos, by simp; omega⟩ hcon
      refine ⟨heq, ?_⟩
      rw [heq]
      simp [takeLast]
      omega
    · rintro rfl
      have heq : applyPage c maxPages p d .previous =
          ⟨(d :: c.pages).take maxPages, (p :: c.pageParams).take maxPages⟩ := by
        simp only [applyPage]
        split
        · rfl
        · rename_i hcon
          exact absurd ⟨hpos, by simp; omega⟩ hcon
      refine ⟨heq, ?_⟩
      rw [heq]
      simp
      omega

/-- Witness for `applyPage_window`: a chain of two aligned pages, window 2,
appending a third page. -/
theorem applyPage_window_witness :
    (([10, 20] : List Int).length = ([1, 2] : List Int).length) ∧
    (((applyPage ⟨[10, 20], [1, 2]⟩ 2 3 (30 : Int) .next).pages.length =
       (applyPage ⟨[10, 20], [1, 2]⟩ 2 3 (30 : Int) .next).pageParams.length) ∧
     (2 > 0 → ([10, 20] : List Int).length + 1 > 2 →
       (Direction.next = .next →
         applyPage ⟨[10, 20], [1, 2]⟩ 2 3 (30 : Int) .next =
           ⟨takeLast 2 ([10, 20] ++ [30]), takeLast 2 ([1, 2] ++ [3])⟩ ∧
         (applyPage ⟨[10, 20], [1, 2]⟩ 2 3 (30 : Int) .next).pages.length = 2) ∧
       (Direction.next = .previous →
         applyPage ⟨[10, 20], [1, 2]⟩ 2 3 (30 : Int) .next =
           ⟨((30 : Int) :: [10, 20]).take 2, ((3 : Int) :: [1, 2]).take 2⟩ ∧
         (applyPage ⟨[10, 20], [1, 2]⟩ 2 3 (30 : Int) .next).pages.length = 2)) ∧
     (applyPages ⟨[], []⟩ 3 (fun n => n) [1, 2, 3, 4] =
       ⟨[2, 3, 4], [2, 3, 4]⟩)) :=
  ⟨by decide, applyPage_window ⟨[10, 20], [1, 2]⟩ 2 3 30 .next (by decide)⟩

/-- C9: `refetchAll` fail-fast.  `refetchAll` re-fetches the previously
resident page params sequentially in original order; if the fetch of some
param fails, the pages fetched before the failure remain applied to the
chain, no later param is attempted (each attempted param is invalidated
and fetched, and the attempted list is exactly the prefix up to and
including the failing param), and only that first error is surfaced. -/
theorem refetchAll_failFast {α ε : Type} (f : Int → Except ε α) (g : Int → α)
    (maxPages : Nat) (pre post : List Int) (pfail : Int) (e : ε)
    (hok : ∀ p ∈ pre, f p = .ok (g p)) (hfail : f pfail = .error e) :
    refetchAll f maxPages (pre ++ pfail :: post) =
      ⟨applyPages ⟨[], []⟩ maxPages g pre, pre ++ [pfail], some e⟩ :=
  refetchLoop_spec f g maxPages pfail e post pre ⟨[], []⟩ hok hfail

/-- Witness for `refetchAll_failFast`: resident params `[1, 2, 3, 4]` where
params 1 and 2 succeed and param 3 fails; the run keeps the two completed
pages, attempts `[1, 2, 3]` only, and surfaces error 7. -/
theorem refetchAll_failFast_witness :
    (∀ p ∈ ([1, 2] : List Int), (fun q : Int => if q < 3 then (.ok q : Except Nat Int) else .error 7) p = .ok p) ∧
    ((fun q : Int => if q < 3 then (.ok q : Except Nat Int) else .error 7) 3 = .error 7) ∧
    refetchAll (fun q : Int => if q < 3 then (.ok q : Except Nat Int) else .error 7) 0 ([1, 2] ++ 3 :: [4]) =
      ⟨applyPages ⟨[], []⟩ 0 (fun q => q) [1, 2], [1, 2] ++ [3], some 7⟩ :=
  ⟨by intro p hp; fin_cases hp <;> rfl, rfl,
   refetchAll_failFast (fun q : Int => if q < 3 then .ok q else .error 7)
     (fun q => q) 0 [1, 2] [4] 3 7 (by intro p hp; fin_cases hp <;> rfl) rfl⟩

/-- C2: fetch deduplication.  (1) A `fetch` on a key with an in-flight
promise returns that same promise, does not invoke the producer, and
leaves the entry map unchanged.  (2) Hence a first `fetch` on a free key
starts the producer under the fresh promise id and any burst of further
`fetch` calls issued before settlement is deduplicated onto it: the
producer runs exactly once, and every call of the burst returns the same
future.  (3) All callers observe the same eventual outcome: the one
settlement recorded for that shared promise. -/
theorem fetch_dedup_exactly_once {α ε : Type} (s : CacheState α ε)
    (k : String) (b : Option String) (bs : List (Option String))
    (res : Except ε α) (now : Nat) (hfree : inflight s k = none) :
    (∀ (t : CacheState α ε) (e : Entry α ε) (p : Nat) (b' : Option String),
        alookup k t.cache = some e → e.promise = some p →
        (t.fetchStart k b').2.1 = .deduped p ∧
        (t.fetchStart k b').1.cache = t.cache) ∧
    ((s.fetchStart k b).2.1 = .started s.nextPromiseId ∧
     (runFetches k (s.fetchStart k b).1 bs).2 =
        bs.map (fun _ => .deduped s.nextPromiseId)) ∧
    (((s.fetchStart k b).2.1 :: (runFetches k (s.fetchStart k b).1 bs).2).countP
        (fun o => o.isStarted) = 1 ∧
     ∀ o ∈ (s.fetchStart k b).2.1 :: (runFetches k (s.fetchStart k b).1 bs).2,
        o.pid = s.nextPromiseId) ∧
    outcomeOf
      ((runFetches k (s.fetchStart k b).1 bs).1.settle k res now).1
      s.nextPromiseId = some res := by
  obtain ⟨ho, e', hl', hp'⟩ := fetchStart_started s k b hfree
  obtain ⟨hlist, hcache⟩ := runFetches_deduped k s.nextPromiseId bs _ e' hl' hp'
  have hl2 : alookup k (runFetches k (s.fetchStart k b).1 bs).1.cache = some e' := by
    rw [hcache]; exact hl'
  refine ⟨?_, ⟨ho, hlist⟩, ⟨?_, ?_⟩, ?_⟩
  · intro t e p b' hl hp
    obtain ⟨h1, h2, -, -⟩ := fetchStart_deduped t k b' e p hl hp
    exact ⟨h1, h2⟩
  · rw [ho, hlist]
    simp [FetchOutcome.isStarted, List.countP_cons]
  · intro o hmem
    rw [ho, hlist] at hmem
    rcases List.mem_cons.mp hmem with h | h
    · rw [h]; rfl
    · obtain ⟨x, -, hx⟩ := List.mem_map.mp h
      rw [hx.symm]
      rfl
  · exact settle_outcome _ k res now e' s.nextPromiseId hl2 hp'

/-- Witness for `fetch_dedup_exactly_once`: a fresh cache, one fetch on
key "k" followed by a burst of two more calls, settling with value 5. -/
theorem fetch_dedup_exactly_once_witness :
    inflight (CacheState.initial (α := Nat) (ε := Nat)) "k" = none ∧
    outcomeOf
      ((runFetches "k" ((CacheState.initial (α := Nat) (ε := Nat)).fetchStart "k" none).1
          [none, none]).1.settle "k" (.ok 5) 3).1
      (CacheState.initial (α := Nat) (ε := Nat)).nextPromiseId = some (.ok 5) :=
  ⟨rfl,
   (fetch_dedup_exactly_once CacheState.initial "k" none [none, none]
      (.ok 5) 3 rfl).2.2.2⟩

/-- C3: fetch settlement postconditions.  For a fetch that actually starts
the producer: on success the entry's data is set to the produced value,
its error is cleared, status becomes Success and fetchedAt the current
time; on failure the error is stored, the data is untouched, and status
is set to Error only when the entry holds no previously fetched data; in
both outcomes the in-flight marker is cleared and exactly the entry's
subscribers are notified; and a notification pass invokes every
subscriber callback in order even when some callbacks throw (their errors
are caught). -/
theorem fetch_settlement_postconditions {α ε : Type} (s : CacheState α ε)
    (k : String) (b : Option String) (v : α) (err : ε) (now : Nat)
    (runCb : Nat → Except String Unit) (hfree : inflight s k = none) :
    (s.fetchStart k b).2.1 = .started s.nextPromiseId ∧
    (∀ e1, alookup k (s.fetchStart k b).1.cache = some e1 →
      (((s.fetchStart k b).1.settle k (.ok v) now).1.cache =
        aset k ({ e1 with
          data := some v, error := none, status := .success,
          fetchedAt := now, promise := none }) (s.fetchStart k b).1.cache ∧
       ((s.fetchStart k b).1.settle k (.ok v) now).2 = e1.subscribers) ∧
      (∃ e', ((s.fetchStart k b).1.settle k (.error err) now).1.cache =
          aset k e' (s.fetchStart k b).1.cache ∧
        e'.error = some err ∧ e'.data = e1.data ∧ e'.promise = none ∧
        e'.subscribers = e1.subscribers ∧
        (e1.data = none → e'.status = .error) ∧
        (∀ d, e1.data = some d → e'.status = e1.status) ∧
        ((s.fetchStart k b).1.settle k (.error err) now).2 = e1.subscribers)) ∧
    (∀ subs, (notifyRun subs runCb).map Prod.fst = subs) := by
  obtain ⟨ho, e', hl', -⟩ := fetchStart_started s k b hfree
  refine ⟨ho, ?_, ?_⟩
  · intro e1 hl1
    refine ⟨⟨?_, ?_⟩, ?_⟩
    · simp [CacheState.settle, hl1]
    · simp [CacheState.settle, hl1]
    · refine ⟨{ e1 with
          error := some err,
          status := if e1.data.isNone then .error else e1.status,
          promise := none }, ?_, rfl, rfl, rfl, rfl, ?_, ?_, ?_⟩
      · simp [CacheState.settle, hl1]
      · intro hd; simp [hd]
      · intro d hd; simp [hd]
      · simp [CacheState.settle, hl1]
  · intro subs
    induction subs with
    | nil => rfl
    | cons hd t iht =>
      cases hcb : runCb hd <;> simp_all [notifyRun]

/-- Witness for `fetch_settlement_postconditions`: a fresh cache and key
"k", producer value 5 or error 7, with a subscriber behaviour that throws
on every callback. -/
theorem fetch_settlement_postconditions_witness :
    inflight (CacheState.initial (α := Nat) (ε := Nat)) "k" = none ∧
    ∀ subs, (notifyRun subs (fun _ => .error "boom")).map Prod.fst = subs :=
  ⟨rfl,
   (fetch_settlement_postconditions CacheState.initial "k" none 5 7 3
      (fun _ => .error "boom") rfl).2.2⟩

/-- C4: fetch never regresses a visible status to Loading.  A fetch sets
the status to Loading only when the entry was Idle as the fetch started;
on an entry whose status is not Idle (Success, Error, or already Loading)
the status is left exactly as it was. -/
theorem fetch_no_loading_regression {α ε : Type} (s : CacheState α ε)
    (k : String) (b : Option String) (e : Entry α ε)
    (hl : alookup k s.cache = some e) :
    (e.status ≠ .idle →
      ∃ e', alookup k (s.fetchStart k b).1.cache = some e' ∧
        e'.status = e.status) ∧
    (e.status = .idle → e.promise = none →
      ∃ e', alookup k (s.fetchStart k b).1.cache = some e' ∧
        e'.status = .loading) := by
  obtain ⟨hc, he, hn, -, -⟩ := get_of_mem s k b e hl
  cases hp : e.promise with
  | some p =>
    have hded := fetchStart_deduped s k b e p hl hp
    constructor
    · intro _
      refine ⟨e, ?_, rfl⟩
      rw [hded.2.1]
      exact hl
    · intro _ hnone
      exact absurd hnone (by simp)
  | none =>
    constructor
    · intro hst
      refine ⟨{ e with promise := some s.nextPromiseId }, ?_, rfl⟩
      simp [CacheState.fetchStart, he, hp, hst, hn, alookup_aset_self]
    · intro hst _
      refine ⟨{ e with status := .loading, promise := some s.nextPromiseId },
        ?_, rfl⟩
      simp [CacheState.fetchStart, he, hp, hst, hn, alookup_aset_self]

/-- Witness for `fetch_no_loading_regression`: an entry in Success status
(prior background data) keeps status Success across a new fetch. -/
theorem fetch_no_loading_regression_witness :
    alookup "k" (((CacheState.initial (α := Nat) (ε := Nat)).fetchStart "k" none).1.settle
        "k" (.ok 5) 3).1.cache =
      some { data := some 5, error := none, status := .success, fetchedAt := 3,
             promise := none, subscribers := [], gcTimeout := none } ∧
    (QueryStatus.success ≠ .idle →
      ∃ e', alookup "k"
          ((((CacheState.initial (α := Nat) (ε := Nat)).fetchStart "k" none).1.settle
              "k" (.ok 5) 3).1.fetchStart "k" none).1.cache = some e' ∧
        e'.status = .success) :=
  ⟨by rfl,
   (fetch_no_loading_regression
      ((((CacheState.initial (α := Nat) (ε := Nat))).fetchStart "k" none).1.settle
        "k" (.ok 5) 3).1
      "k" none
      { data := some 5, error := none, status := .success, fetchedAt := 3,
        promise := none, subscribers := [], gcTimeout := none }
      (by rfl)).1⟩

/-- C5: `invalidate` frame conditions.  On a resident entry it resets
fetchedAt to 0 and notifies exactly that entry's subscribers, leaving the
entry's data, error, status, in-flight marker, subscriber set and GC
timer unchanged, leaving every other entry, the family registry, the
armed timers and the promise counter unchanged (it never starts a fetch);
on an absent key it changes nothing and notifies no-one. -/
theorem invalidate_frame {α ε : Type} (s : CacheState α ε) (k : String) :
    (∀ e, alookup k s.cache = some e →
      alookup k (s.invalidate k).1.cache = some ({ e with fetchedAt := 0 }) ∧
      (s.invalidate k).2 = e.subscribers ∧
      (∀ k', k' ≠ k → alookup k' (s.invalidate k).1.cache = alookup k' s.cache) ∧
      (s.invalidate k).1.keyRegistry = s.keyRegistry ∧
      (s.invalidate k).1.armedTimers = s.armedTimers ∧
      (s.invalidate k).1.nextPromiseId = s.nextPromiseId ∧
      (s.invalidate k).1.nextTimerId = s.nextTimerId ∧
      (s.invalidate k).1.outcomes = s.outcomes) ∧
    (alookup k s.cache = none → s.invalidate k = (s, [])) := by
  constructor
  · intro e hl
    refine ⟨?_, ?_, ?_, ?_, ?_, ?_, ?_, ?_⟩ <;>
      simp [CacheState.invalidate, hl, alookup_aset_self]
    intro k' hk
    exact alookup_aset_ne k' k _ s.cache (Ne.symm hk)
  · intro hl
    simp [CacheState.invalidate, hl]

/-- Witness for `invalidate_frame`: invalidating key "k" after a settled
fetch resets fetchedAt to 0 and keeps the data. -/
theorem invalidate_frame_witness :
    alookup "k" (((CacheState.initial (α := Nat) (ε := Nat)).fetchStart "k" none).1.settle
        "k" (.ok 5) 3).1.cache =
      some { data := some 5, error := none, status := .success, fetchedAt := 3,
             promise := none, subscribers := [], gcTimeout := none } ∧
    alookup "k"
        ((((CacheState.initial (α := Nat) (ε := Nat)).fetchStart "k" none).1.settle
            "k" (.ok 5) 3).1.invalidate "k").1.cache =
      some { data := some 5, error := none, status := .success, fetchedAt := 0,
             promise := none, subscribers := [], gcTimeout := none } :=
  ⟨by rfl,
   by
    have h := (invalidate_frame (α := Nat) (ε := Nat)
        (((CacheState.initial.fetchStart "k" none).1.settle "k" (.ok 5) 3).1) "k").1
        _ (by rfl)
    exact h.1⟩

/-- C6: subscriber/eviction invariant.  In every state reachable from a
fresh cache: an entry with subscribers has no pending eviction-timer
handle, and every armed eviction timer belongs to a resident entry whose
timer handle it is and which has no subscribers.  Moreover: subscribing
cancels any pending eviction timer for the key (the handle is nulled, the
timer id is disarmed everywhere, and the callback is registered);
scheduleGC is a no-op when the entry currently has subscribers; an armed
timer firing never deletes an entry that has subscribers; and a subscribe
occurring before a pending timer fires always prevents the eviction — the
subsequent firing changes nothing and the key stays resident with the new
subscriber. -/
theorem subscriber_eviction_invariant {α ε : Type} (ops : List (Op α ε)) :
    ((∀ k e, alookup k (runOps CacheState.initial ops).cache = some e →
        e.subscribers ≠ [] → e.gcTimeout = none) ∧
     (∀ t k b, (t, k, b) ∈ (runOps (CacheState.initial (α := α) (ε := ε)) ops).armedTimers →
        ∃ e, alookup k (runOps CacheState.initial ops).cache = some e ∧
          e.gcTimeout = some t ∧ e.subscribers = [])) ∧
    (∀ (s : CacheState α ε) (k : String) (cb : Nat) (b : Option String)
        (e : Entry α ε) (tid : Nat),
      alookup k s.cache = some e → e.gcTimeout = some tid →
      (∃ e', alookup k (s.subscribe k cb b).cache = some e' ∧
        e'.gcTimeout = none ∧ cb ∈ e'.subscribers) ∧
      ∀ x ∈ (s.subscribe k cb b).armedTimers, x.1 ≠ tid) ∧
    (∀ (s : CacheState α ε) (k : String) (ct : Option Nat)
        (b : Option String) (e : Entry α ε),
      alookup k s.cache = some e → e.subscribers ≠ [] →
      s.scheduleGC k ct b = s) ∧
    (∀ (s : CacheState α ε) (tid : Nat) (k : String) (e : Entry α ε),
      alookup k s.cache = some e → e.subscribers ≠ [] →
      alookup k (s.fireGC tid).cache = some e) ∧
    (∀ (s : CacheState α ε) (k : String) (cb : Nat) (b : Option String)
        (e : Entry α ε) (tid : Nat),
      alookup k s.cache = some e → e.gcTimeout = some tid →
      (s.subscribe k cb b).fireGC tid = s.subscribe k cb b ∧
      ∃ e', alookup k ((s.subscribe k cb b).fireGC tid).cache = some e' ∧
        cb ∈ e'.subscribers) := by
  have hinv : GCInv (runOps (CacheState.initial (α := α) (ε := ε)) ops) :=
    gcinv_runOps ops CacheState.initial gcinv_initial
  obtain ⟨-, h2, h3⟩ := hinv
  refine ⟨⟨h2, ?_⟩, ?_, ?_, ?_, ?_⟩
  · intro t k b hmem
    obtain ⟨e, hl, hgc⟩ := h3 t k b hmem
    refine ⟨e, hl, hgc, ?_⟩
    by_cases hs : e.subscribers = []
    · exact hs
    · have := h2 k e hl hs
      rw [this] at hgc
      exact absurd hgc (by simp)
  · intro s k cb b e tid hl hgc
    exact subscribe_cancels_timer s k cb b e tid hl hgc
  · intro s k ct b e hl hs
    exact scheduleGC_noop_subscribed s k ct b e hl hs
  · intro s tid k e hl hs
    exact fireGC_keeps_subscribed s tid k e hl hs
  · intro s k cb b e tid hl hgc
    exact subscribe_beats_fire s k cb b e tid hl hgc

/-- Witness for `subscriber_eviction_invariant`: a concrete state with an
armed timer (id 7) pending on key "k"; subscribing callback 2 and then
firing timer 7 leaves the entry resident with the subscriber. -/
theorem subscriber_eviction_invariant_witness :
    alookup "k" sampleTimedState.cache = some sampleTimedEntry ∧
    sampleTimedEntry.gcTimeout = some 7 ∧
    ((sampleTimedState.subscribe "k" 2 none).fireGC 7 =
        sampleTimedState.subscribe "k" 2 none ∧
     ∃ e', alookup "k"
        ((sampleTimedState.subscribe "k" 2 none).fireGC 7).cache = some e' ∧
        2 ∈ e'.subscribers) :=
  ⟨rfl, rfl,
   (subscriber_eviction_invariant (α := Nat) (ε := Nat) []).2.2.2.2
     sampleTimedState "k" 2 none sampleTimedEntry 7 rfl rfl⟩

/-- C7 counterexample: the claim as frozen is false on the code, in two
ways.  First, the optional baseKey parameter of `remove` controls
unregistration: after `get("c", "b")` (which registers variation "c"
under family "b") a `remove("c")` with the baseKey omitted — exactly
what the code permits — deletes "c" from the store but leaves it
registered under "b".  Second, the eviction path taken by
`QueryObserver.updateOptions` after a queryKey change
(`QueryObserver.js` line 187) schedules GC on the OLD composite key
while passing the NEW base key (`_updateKeys()` has already recomputed
`this._baseKey`): the timer callback then deletes the old entry but
`_unregisterKey(oldKey, newBase)` misses the old family, again leaving
the evicted key registered.  So a removal from the store does not
always remove the registry entry. -/
theorem family_registry_counterexample :
    alookup "c" (runOps (CacheState.initial (α := Nat) (ε := Nat))
      [.get "c" (some "b"), .remove "c" none]).cache = none ∧
    alookup "b" (runOps (CacheState.initial (α := Nat) (ε := Nat))
      [.get "c" (some "b"), .remove "c" none]).keyRegistry = some ["c"] ∧
    alookup "old" (runOps (CacheState.initial (α := Nat) (ε := Nat))
      [.get "old" (some "oldB"), .subscribe "old" 1 (some "oldB"),
       .unsubscribe "old" 1, .scheduleGC "old" (some 5) (some "newB"),
       .fireGC 0]).cache = none ∧
    alookup "oldB" (runOps (CacheState.initial (α := Nat) (ε := Nat))
      [.get "old" (some "oldB"), .subscribe "old" 1 (some "oldB"),
       .unsubscribe "old" 1, .scheduleGC "old" (some 5) (some "newB"),
       .fireGC 0]).keyRegistry = some ["old"] :=
  ⟨rfl, rfl, rfl, rfl⟩

/-- C7 (amended): family-registry consistency holds exactly for coherent
call sequences.  The literal claim fails on the code: the optional
baseKey argument may be omitted (`remove(key)` at part_000 lines
420–429) or may name a different family than the key's own
(`QueryObserver.updateOptions` schedules GC on the old composite key
with the freshly recomputed base key, QueryObserver.js line 187), and
either way an eviction or removal leaves a stale registration — see the
counterexample for both executions.  Whenever every operation supplies
the variation's own base key, then in every reachable state: every
resident variation key is registered under exactly one family, its own
base key; every registered variation key is resident (so every removal —
by remove, removeByKey or the eviction timer — also removed the
registration); and a family whose variation set became empty is deleted
from the registry rather than retained. -/
theorem family_registry_invariant {α ε : Type} (baseOf : String → String)
    (ops : List (Op α ε)) (hco : ∀ op ∈ ops, OpCoherent baseOf op) :
    (∀ c, (alookup c (runOps (CacheState.initial (α := α) (ε := ε))
          ops).cache).isSome →
      (∃ fam, alookup (baseOf c) (runOps (CacheState.initial (α := α) (ε := ε))
          ops).keyRegistry = some fam ∧ c ∈ fam) ∧
      (∀ b fam, alookup b (runOps (CacheState.initial (α := α) (ε := ε))
          ops).keyRegistry = some fam → c ∈ fam → b = baseOf c)) ∧
    (∀ b fam c, alookup b (runOps (CacheState.initial (α := α) (ε := ε))
        ops).keyRegistry = some fam → c ∈ fam →
      (alookup c (runOps (CacheState.initial (α := α) (ε := ε))
        ops).cache).isSome ∧ baseOf c = b) ∧
    (∀ b fam, alookup b (runOps (CacheState.initial (α := α) (ε := ε))
        ops).keyRegistry = some fam → fam ≠ []) := by
  have h : RegInv baseOf (runOps (CacheState.initial (α := α) (ε := ε)) ops) :=
    reginv_runOps baseOf ops CacheState.initial hco (reginv_initial baseOf)
  obtain ⟨-, -, h2, h3, -⟩ := h
  refine ⟨?_, ?_, ?_⟩
  · intro c hres
    refine ⟨h3 c hres, ?_⟩
    intro b fam hf hcf
    exact (((h2 b fam hf).2.2 c hcf).1).symm
  · intro b fam c hf hcf
    obtain ⟨hb, hres⟩ := (h2 b fam hf).2.2 c hcf
    exact ⟨hres, hb⟩
  · intro b fam hf
    exact (h2 b fam hf).1

/-- Witness for `family_registry_invariant`: one coherent `get` under the
key scheme that maps every variation to family "b". -/
theorem family_registry_invariant_witness :
    (∀ op ∈ ([Op.get "c" (some "b")] : List (Op Nat Nat)),
      OpCoherent (fun _ => "b") op) ∧
    (∀ b fam, alookup b (runOps (CacheState.initial (α := Nat) (ε := Nat))
        [Op.get "c" (some "b")]).keyRegistry = some fam → fam ≠ []) :=
  ⟨by
    intro op hop
    rw [List.mem_singleton.mp hop]
    rfl,
   (family_registry_invariant (fun _ => "b") [Op.get "c" (some "b")]
     (by
       intro op hop
       rw [List.mem_singleton.mp hop]
       rfl)).2.2⟩

/-- C1 counterexample: the claim as frozen is false on the code.  `hashKey`
passes a top-level string through unchanged, so the text descriptor `"5"`
and the number descriptor `5` are structurally distinct well-formed
inputs that canonicalize to the identical string `"5"`. -/
theorem hashKey_collision_cex :
    structEq (.text "5") (.num 5) = false ∧
    wfKey (.text "5") = true ∧ wfKey (.num 5) = true ∧
    hashKey (.text "5") = hashKey (.num 5) := by
  refine ⟨by simp [structEq], by rw [wfKey], by rw [wfKey], ?_⟩
  rw [show hashKey (.text "5") = "5" from rfl]
  rw [hashKey_ser (.num 5) rfl]
  rw [show sortAll (.num 5) = .num 5 by rw [sortAll]]
  rw [show serK (.num 5) = intChars 5 by rw [serK]]
  rw [show intChars (5 : Int) = natDigits (5 : Int).natAbs by
    simp [intChars]]
  rw [show ((5 : Int).natAbs) = 5 from rfl]
  rw [show natDigits 5 = [Char.ofNat (48 + 5)] by rw [natDigits]; simp]

/-- C1 (amended): among well-formed descriptors (mappings carry
duplicate-free keys), canonicalization is a bijection on structure within
each top-level kind: structurally equal descriptors canonicalize to the
identical string, and two descriptors of the same top-level kind (both
text, or both non-text) with the same canonical string are structurally
equal — in particular two mappings with the same entries in different
insertion order canonicalize identically while two lists with the same
elements in different order do not; a top-level text however passes
through unquoted and may collide with the serialization of a non-text
descriptor. -/
theorem hashKey_structural_sound (a b : KeyPart)
    (hwa : wfKey a = true) (hwb : wfKey b = true) :
    (structEq a b = true → hashKey a = hashKey b) ∧
    (a.isText = b.isText → hashKey a = hashKey b → structEq a b = true) ∧
    hashKey (.obj [("a", .num 1), ("b", .num 2)])
      = hashKey (.obj [("b", .num 2), ("a", .num 1)]) ∧
    hashKey (.list [.num 1, .num 2]) ≠ hashKey (.list [.num 2, .num 1]) := by
  refine ⟨hashKey_eq_of_structEq a b hwa hwb,
    fun ht => structEq_of_hashKey_eq a b ht hwa hwb, ?_, ?_⟩
  · have hab : ("a" : String) ≤ "b" := by
      rw [String.le_iff_toList_le]
      decide
    have hba : ¬ (("b" : String) ≤ "a") := by
      rw [String.le_iff_toList_le]
      decide
    apply hashKey_eq_of_sortAll (.obj [("a", .num 1), ("b", .num 2)])
      (.obj [("b", .num 2), ("a", .num 1)]) rfl rfl
    rw [show sortAll (.obj [("a", .num 1), ("b", .num 2)])
        = .obj (sortEntries (sortAllEntries [("a", .num 1), ("b", .num 2)]))
        by rw [sortAll]]
    rw [show sortAll (.obj [("b", .num 2), ("a", .num 1)])
        = .obj (sortEntries (sortAllEntries [("b", .num 2), ("a", .num 1)]))
        by rw [sortAll]]
    simp [sortAllEntries, sortEntries, insEntry, hab, hba, sortAll]
  · intro h
    rw [hashKey_ser (.list [.num 1, .num 2]) rfl,
      hashKey_ser (.list [.num 2, .num 1]) rfl] at h
    have h2 := serK_inj _ _ (congrArg String.data h)
    rw [show sortAll (.list [.num 1, .num 2]) = .list [.num 1, .num 2] by
        simp [sortAll, sortAllList],
      show sortAll (.list [.num 2, .num 1]) = .list [.num 2, .num 1] by
        simp [sortAll, sortAllList]] at h2
    simp at h2

/-- Witness for the C1 theorem at a concrete well-formed input. -/
theorem hashKey_structural_sound_wit :
    wfKey (.num 1) = true ∧
    (structEq (.num 1) (.num 1) = true → hashKey (.num 1) = hashKey (.num 1)) := by
  refine ⟨by rw [wfKey], ?_⟩
  exact (hashKey_structural_sound (.num 1) (.num 1) (by rw [wfKey]) (by rw [wfKey])).1
end WWQuery



